import Mathlib

/-!
# Verification of the routing-testbed core (flooding / Dijkstra / LSR)

Shallow embedding of the repository's pure core, translated from the Python
sources:

* `Dijkstra/protocols.py` — header rotation, TTL handling, `forward_transform`,
  `sanitize_incoming`, `ExpiringSet`;
* `LSR/protocols.py` — the LSR variant of `sanitize_incoming` (dict-shaped
  headers accepted, defaults supplied);
* `Dijkstra/dijkstra.py` — `shortest_paths` (lazy-deletion Dijkstra),
  `reconstruct_path`, `build_next_hop_table`;
* `LSR/lsr.py` — `LSDB.apply_lsp`, the `message` branch of
  `LSRRouter.on_receive`, and the packet built by `originate_lsp`.

Python `dict`s are embedded as association lists with first-match lookup and
update-in-place-or-append assignment, which reproduces insertion-ordered dict
semantics.  Python `float` arithmetic on edge weights and timestamps is
embedded as exact rational arithmetic (`ℚ`).  Unbounded `while` loops are
embedded with an explicit fuel parameter; the callers pass a fuel that is
proved sufficient, and exhaustion is reported as a distinguished error so that
it can never be confused with a normal result.  A Python `KeyError` is
embedded as an explicit error value.
-/

/-- A Python `dict` keyed by strings: an association list, first match wins. -/
abbrev Dict (α : Type) := List (String × α)

namespace Dict

/-- `d[k]` / `d.get(k)`: the value at the first occurrence of `k`. -/
def find? {α : Type} : Dict α → String → Option α
  | [], _ => none
  | (k', v) :: rest, k => if k' = k then some v else find? rest k

/-- `d[k] = v`: replace the value at the first occurrence of `k`,
or append `(k, v)` when `k` is absent (insertion-ordered dict assignment). -/
def insert {α : Type} : Dict α → String → α → Dict α
  | [], k, v => [(k, v)]
  | (k', v') :: rest, k, v =>
    if k' = k then (k, v) :: rest else (k', v') :: insert rest k v

/-- `d.keys()` in iteration order. -/
def keys {α : Type} (d : Dict α) : List String := d.map Prod.fst

end Dict

/-! ## `Dijkstra/protocols.py` — packet codec primitives -/

/-- `HEADERS_MAXLEN` of `protocols.py`. -/
def HEADERS_MAXLEN : Nat := 3

/-- The Python slice `l[-n:]` for `n > 0` (all call sites use `n = 3`). -/
def takeLast {α : Type} (n : Nat) (l : List α) : List α :=
  l.drop (l.length - n)

/-- A wire packet after sanitization: the eight mandatory fields of the JSON
schema of `protocols.py`.  `payload` is opaque to the forwarding layer and is
kept as an uninterpreted string here. -/
structure Packet where
  proto : String
  ptype : String
  src : String
  dst : String
  ttl : Int
  headers : List String
  payload : String
  msg_id : String
deriving DecidableEq

/-- `rotate_headers` of `Dijkstra/protocols.py`: drop the first element when
the list is nonempty, append `self_id`, keep the last `maxlen`. -/
def rotate_headers (headers : List String) (self_id : String)
    (maxlen : Nat := HEADERS_MAXLEN) : List String :=
  let hs := if headers.isEmpty then headers else headers.tail
  takeLast maxlen (hs ++ [self_id])

/-- `should_drop_for_cycle` of `Dijkstra/protocols.py`. -/
def should_drop_for_cycle (self_id : String) (headers : List String) : Bool :=
  headers.contains self_id

/-- `decrement_ttl` of `Dijkstra/protocols.py`: `max(int(ttl) - 1, 0)`,
with a missing ttl treated as 0. -/
def decrement_ttl (ttl : Option Int) : Int :=
  match ttl with
  | none => 0
  | some t => max (t - 1) 0

/-- `forward_transform` of `Dijkstra/protocols.py`: `None` on a cycle
(`self_id` in headers) or when the decremented ttl is `≤ 0`; otherwise a copy
of the packet with the decremented ttl and rotated headers. -/
def forward_transform (pkt : Packet) (self_id : String) : Option Packet :=
  if should_drop_for_cycle self_id pkt.headers then none
  else
    let new_ttl := decrement_ttl (some pkt.ttl)
    if new_ttl ≤ 0 then none
    else
      let new_headers := rotate_headers pkt.headers self_id HEADERS_MAXLEN
      some { pkt with ttl := new_ttl, headers := new_headers }

/-! ### A heap model for the frame property of `forward_transform`

The Python function reads `pkt`, makes a shallow copy `new_pkt = dict(pkt)`
and mutates only the copy.  To state non-mutation of the argument we model the
Python object store explicitly: a list of packet objects addressed by index.
`dict(pkt)` allocates a fresh object at the end of the store, and each
assignment `new_pkt[...] = ...` updates that fresh object in place. -/

/-- The packet heap: Python objects addressed by their index. -/
abbrev PacketStore := List Packet

/-- `forward_transform` acting on the object store: reads the packet at `r`,
and on the forwarding path allocates the copy `dict(pkt)` as a new object and
performs the two field assignments on it.  Returns the updated store and the
reference to the result object (`none` when the packet is dropped). -/
def forward_transform_st (st : PacketStore) (r : Nat) (self_id : String) :
    PacketStore × Option Nat :=
  match st.get? r with
  | none => (st, none)
  | some pkt =>
    if should_drop_for_cycle self_id pkt.headers then (st, none)
    else
      let new_ttl := decrement_ttl (some pkt.ttl)
      if new_ttl ≤ 0 then (st, none)
      else
        let new_headers := rotate_headers pkt.headers self_id HEADERS_MAXLEN
        let st1 := st ++ [pkt]
        let st2 := st1.set st.length { pkt with ttl := new_ttl }
        let st3 := st2.set st.length { pkt with ttl := new_ttl, headers := new_headers }
        (st3, some st.length)

/-! ## Raw JSON values and the two `sanitize_incoming` variants

Incoming packets are arbitrary JSON, embedded as `JVal` (floats and booleans
do not occur in the repository's wire traffic and are omitted).  `pyStr`
models Python `str(·)` (faithful on scalars; the rendering of containers is
abstracted, it is never relied on by a theorem), `pyInt?` models `int(·)`
(succeeding on integers and integer-shaped strings), `pyTruthy` models
Python truthiness. -/

/-- A JSON value as received from the bus. -/
inductive JVal where
  | null
  | str (s : String)
  | int (n : Int)
  | arr (xs : List JVal)
  | obj (kvs : List (String × JVal))

namespace JVal

/-- `x is None`. -/
def isNull : JVal → Bool
  | .null => true
  | _ => false

end JVal

/-- Python `str(·)` (exact on the scalar values that actually occur). -/
def pyStr : JVal → String
  | .null => "None"
  | .str s => s
  | .int n => toString n
  | .arr _ => "<list>"
  | .obj _ => "<dict>"

/-- Python `int(·)`: `none` models the `ValueError`/`TypeError` raise. -/
def pyInt? : JVal → Option Int
  | .int n => some n
  | .str s => s.toInt?
  | _ => none

/-- Python truthiness of a JSON value. -/
def pyTruthy : JVal → Bool
  | .null => false
  | .str s => s ≠ ""
  | .int n => n ≠ 0
  | .arr xs => !xs.isEmpty
  | .obj kvs => !kvs.isEmpty

/-- `normalize_headers` of both `protocols.py` files, applied to a JSON
array: drop `None` entries, stringify the rest, keep the last 3. -/
def normalize_headers_j (xs : List JVal) : List String :=
  takeLast HEADERS_MAXLEN ((xs.filter (fun h => !h.isNull)).map pyStr)

/-- `_extract_trail_from_headers_maybe_dict` of `LSR/protocols.py`. -/
def extract_trail (h : JVal) : List String :=
  match h with
  | .arr xs => normalize_headers_j xs
  | .obj kvs =>
    match Dict.find? kvs "trail" with
    | some (.arr xs) => normalize_headers_j xs
    | _ =>
      match Dict.find? kvs "path" with
      | some (.arr xs) => normalize_headers_j xs
      | _ => []
  | _ => []

/-- `REQUIRED_FIELDS` of both `protocols.py` files. -/
def REQUIRED_FIELDS : List String :=
  ["proto", "type", "from", "to", "ttl", "headers", "payload", "msg_id"]

/-- The result of a successful `sanitize_incoming`: the four string fields
normalized, an integral ttl, list-shaped headers; `payload` and `msg_id` are
whatever the function left there. -/
structure SanePacket where
  proto : String
  ptype : String
  src : String
  dst : String
  ttl : Int
  headers : List String
  payload : JVal
  msg_id : JVal

/-- `sanitize_incoming` of `Dijkstra/protocols.py`: `is_valid_packet`
(all eight fields present, `headers` a list, `ttl` integral), then the
in-place normalizations.  `none` models the raised `ValueError`. -/
def sanitize_d (raw : JVal) : Option SanePacket :=
  match raw with
  | .obj kvs =>
    if REQUIRED_FIELDS.all (fun k => (Dict.find? kvs k).isSome) then
      match Dict.find? kvs "headers" with
      | some (.arr xs) =>
        match (Dict.find? kvs "ttl").bind pyInt? with
        | some n =>
          some { proto := pyStr ((Dict.find? kvs "proto").getD .null)
                 ptype := pyStr ((Dict.find? kvs "type").getD .null)
                 src := pyStr ((Dict.find? kvs "from").getD .null)
                 dst := pyStr ((Dict.find? kvs "to").getD .null)
                 ttl := n
                 headers := normalize_headers_j xs
                 payload := (Dict.find? kvs "payload").getD .null
                 msg_id := (Dict.find? kvs "msg_id").getD .null }
        | none => none
      | _ => none
    else none
  | _ => none

/-- `sanitize_incoming` of `LSR/protocols.py`: only rejects a non-mapping or
a present non-integral `ttl`; every other field is normalized or defaulted
(`proto` → `lsr`, `type` → `message`, `from` → `?`, `to` → `broadcast`,
`ttl` → 5, headers extracted from list/dict shapes else `[]`, `msg_id`
taken from a truthy field, else from a dict-shaped headers' `msg_id`, else
the freshly generated `fresh`; `payload` → `{}`). -/
def sanitize_l (raw : JVal) (fresh : String) : Option SanePacket :=
  match raw with
  | .obj kvs =>
    let ttlStep : Option (Option Int) :=
      match Dict.find? kvs "ttl" with
      | some v => (pyInt? v).map some
      | none => some none
    match ttlStep with
    | none => none
    | some ttlVal =>
      let h := (Dict.find? kvs "headers").getD .null
      let genFromHeaders : JVal :=
        match h with
        | .obj hkvs =>
          match Dict.find? hkvs "msg_id" with
          | some hv => if pyTruthy hv then .str (pyStr hv) else .str fresh
          | none => .str fresh
        | _ => .str fresh
      let msgId : JVal :=
        match Dict.find? kvs "msg_id" with
        | some v => if pyTruthy v then v else genFromHeaders
        | none => genFromHeaders
      some { proto := ((Dict.find? kvs "proto").map pyStr).getD "lsr"
             ptype := ((Dict.find? kvs "type").map pyStr).getD "message"
             src := ((Dict.find? kvs "from").map pyStr).getD "?"
             dst := ((Dict.find? kvs "to").map pyStr).getD "broadcast"
             ttl := ttlVal.getD 5
             headers := extract_trail h
             payload := (Dict.find? kvs "payload").getD (.obj [])
             msg_id := msgId }
  | _ => none

/-- The success condition claimed by the spec for `sanitize` (stated over the
six structurally required fields; `msg_id` and `payload` are the two the spec
says are defaulted): input is a mapping, `proto`/`type`/`from`/`to`/`ttl`/
`headers` all present, `ttl` integral, `headers` a sequence or a mapping.
This follows the spec's words, for comparison against the code. -/
def claimedSanitizeOk (raw : JVal) : Bool :=
  match raw with
  | .obj kvs =>
    ["proto", "type", "from", "to", "ttl", "headers"].all
        (fun k => (Dict.find? kvs k).isSome)
      && (match (Dict.find? kvs "ttl").bind pyInt? with
          | some _ => true
          | none => false)
      && (match Dict.find? kvs "headers" with
          | some (.arr _) => true
          | some (.obj _) => true
          | _ => false)
  | _ => false

/-! ## Duplicate filters (`ExpiringSet`)

Two variants exist: `Dijkstra/protocols.py` stores the insertion timestamp
and purges entries with `now - ts > ttl`; `Flooding/utils.py` stores the
expiry time `now + ttl` and evicts entries with `expires_at ≤ now`.  The
monotonic clock is passed in explicitly: each operation carries its own
`now`. -/

/-- The `ExpiringSet` of `Dijkstra/protocols.py`: `_data` maps a key to the
monotonic timestamp at which it was first recorded. -/
structure ExpSetD where
  ttl : Int
  data : Dict ℚ

/-- `_purge` of `Dijkstra/protocols.py`: delete entries with `now - ts > ttl`. -/
def ExpSetD.purge (s : ExpSetD) (now : ℚ) : ExpSetD :=
  { s with data := s.data.filter (fun kv => !(now - kv.2 > (s.ttl : ℚ))) }

/-- `add_if_new` of `Dijkstra/protocols.py`: purge, then report and record
first sight. -/
def ExpSetD.add_if_new (s : ExpSetD) (key : String) (now : ℚ) : Bool × ExpSetD :=
  let s := s.purge now
  match s.data.find? key with
  | some _ => (false, s)
  | none => (true, { s with data := s.data.insert key now })

/-- Run a trace of `add_if_new` calls, each `(key, now)` in order. -/
def ExpSetD.run (s : ExpSetD) : List (String × ℚ) → ExpSetD
  | [] => s
  | (k, t) :: ops => (s.add_if_new k t).2.run ops

/-- The `ExpiringSet` of `Flooding/utils.py`: `data` maps a key to its expiry
time `now + ttl`. -/
structure ExpSetF where
  ttl : Int
  data : Dict ℚ

/-- `_evict` of `Flooding/utils.py`: delete entries with `expires_at ≤ now`. -/
def ExpSetF.evict (s : ExpSetF) (now : ℚ) : ExpSetF :=
  { s with data := s.data.filter (fun kv => !(kv.2 ≤ now)) }

/-- `add_if_new` of `Flooding/utils.py`. -/
def ExpSetF.add_if_new (s : ExpSetF) (key : String) (now : ℚ) : Bool × ExpSetF :=
  let s := s.evict now
  match s.data.find? key with
  | some _ => (false, s)
  | none => (true, { s with data := s.data.insert key (now + s.ttl) })

/-- Run a trace of `add_if_new` calls on the Flooding variant. -/
def ExpSetF.run (s : ExpSetF) : List (String × ℚ) → ExpSetF
  | [] => s
  | (k, t) :: ops => (s.add_if_new k t).2.run ops

/-! ## `LSR/lsr.py` — link-state database -/

/-- One LSDB record: `{'seq': .., 'links': .., 'ts': ..}`. -/
structure LSRecord where
  seq : Int
  links : Dict ℚ
  ts : ℚ
deriving DecidableEq

/-- `LSDB.apply_lsp`: accept (and overwrite) when there is no record for
`origin` or the new `seq` is strictly greater; otherwise report `False` and
leave the database unchanged.  `now` is the wall-clock time of the call. -/
def apply_lsp (db : Dict LSRecord) (origin : String) (seq : Int)
    (links : Dict ℚ) (now : ℚ) : Bool × Dict LSRecord :=
  match db.find? origin with
  | none => (true, db.insert origin ⟨seq, links, now⟩)
  | some cur =>
    if seq > cur.seq then (true, db.insert origin ⟨seq, links, now⟩)
    else (false, db)

/-! ## `LSR/lsr.py` — the `message` branch of `LSRRouter.on_receive`

The router receives packets whose `headers` field is a Python dict
`{"trail": [...], "last_hop": ...}` (the node layer converts list-shaped wire
headers to this form).  The branch is pure except for the final
`send_direct`/log, so it is embedded as a function computing the decision. -/

/-- A message packet as seen by `LSRRouter.on_receive`: the fields the
`message` branch reads, with the headers dict split into its two keys. -/
structure LMsg where
  mfrom : String
  mto : String
  ttl : Int
  trail : List String
  lastHop : Option String
  payload : String
  mid : String
deriving DecidableEq

/-- The decision taken by the `message` branch. -/
inductive RxAction where
  | deliver
  | drop
  | send (nh : String) (fwd : LMsg)
deriving DecidableEq

/-- The `message` branch of `LSRRouter.on_receive` (`LSR/lsr.py`): deliver
when addressed to us; drop on exhausted ttl; resolve a next hop through
`next_hop[to]`, the direct-neighbor shortcut, then the deterministic
fallback `sorted(neighbors - incoming)[0]`; drop when the resolved hop is
falsy; drop the forward when the packet came from the bus and our id is
already in its trail; otherwise send with `ttl-1`, the trail extended by our
id (last 3 kept) and `last_hop` set to us. -/
def on_receive_message (self_id : String) (neighbors : List String)
    (next_hop : Dict String) (msg : LMsg) (incoming : Option String) : RxAction :=
  if msg.mto = self_id then .deliver
  else if msg.ttl ≤ 0 then .drop
  else
    let nh0 := next_hop.find? msg.mto
    let nh1 :=
      if nh0.isNone && decide (msg.mto ∈ neighbors) then some msg.mto else nh0
    let nh2 :=
      if nh1.isNone then
        let nbs := neighbors.filter (fun n => decide (some n ≠ incoming))
        match nbs.mergeSort (fun a b => a ≤ b) with
        | [] => none
        | x :: _ => some x
      else nh1
    match nh2 with
    | none => .drop
    | some nh =>
      if nh = "" then .drop
      else if incoming.isSome && msg.trail.contains self_id then .drop
      else
        .send nh { msg with
          ttl := msg.ttl - 1
          trail := takeLast 3 (msg.trail ++ [self_id])
          lastHop := some self_id }

/-! ## `LSR/lsr.py` — `originate_lsp`

Only the state the claim concerns is embedded: the router's own sequence
number, the configured neighbor list, the metric, and the node's last-RTT
readings.  The function increments `seq`, builds the `links` map and the LSP
packet (via the `build_message` shim of `LSR/protocols.py`, which turns the
`{"ts": ...}` headers dict into `[]` since it has no `trail`/`path` key).
The local apply/flood side effects touch other state and are outside the
claim. -/

/-- The LSP packet built by `originate_lsp` (`build_message` output plus the
payload fields `origin`/`seq`/`links`). -/
structure LspPacket where
  proto : String
  ptype : String
  mfrom : String
  mto : String
  ttl : Int
  headers : List String
  origin : String
  seq : Int
  links : List (String × ℚ)
  msg_id : String
deriving DecidableEq

/-- The router state read and written by `originate_lsp`. -/
structure LsrState where
  selfId : String
  seq : Int
  neighbors : List String
  metric : String
  lastRtt : String → Option ℚ

/-- `originate_lsp` of `LSR/lsr.py` (lines 50–62): `self.seq += 1`, cost 1
per neighbor under the `hop` metric (`float(last_rtt or 1.0)` under `rtt`),
and the LSP packet with `to="*"`, `ttl=16` and payload
`{origin, seq, links}`.  `fresh` is the generated `msg_id`. -/
def originate_lsp (st : LsrState) (fresh : String) : LsrState × LspPacket :=
  let newSeq := st.seq + 1
  let links := st.neighbors.map (fun nb =>
    (nb, if st.metric = "rtt" then
           match st.lastRtt nb with
           | some r => if r = 0 then 1 else r
           | none => 1
         else (1 : ℚ)))
  let pkt : LspPacket :=
    { proto := "lsr", ptype := "lsp", mfrom := st.selfId, mto := "*"
      ttl := 16, headers := [], origin := st.selfId, seq := newSeq
      links := links, msg_id := fresh }
  ({ st with seq := newSeq }, pkt)

/-- `n` successive calls of `originate_lsp` (the per-call `msg_id` plays no
role in the sequence number). -/
def originateIter (st : LsrState) : Nat → LsrState
  | 0 => st
  | n + 1 => (originate_lsp (originateIter st n) "").1

/-! ## `Dijkstra/dijkstra.py`

`shortest_paths` is classic lazy-deletion Dijkstra over a `heapq` of
`(distance, node)` pairs.  The heap is embedded as a plain list together with
`popMin`, which removes the lexicographically least pair — exactly what
`heapq.heappop` returns.  `INF` is `⊤ : WithTop ℚ`.  The `while` loop is
fueled; `shortest_paths` passes a fuel proved sufficient, so `.error .fuelOut`
is unreachable from it.  `dist[v]`/`graph[u]` lookups that would raise
`KeyError` in Python return `.error (.keyError _)`. -/

/-- A weighted directed graph: `{node: {neighbor: weight}}`. -/
abbrev Graph := Dict (Dict ℚ)

/-- The ways the embedded `shortest_paths` can fail: a Python `KeyError`,
or fuel exhaustion of the embedding (proved unreachable from the entry
points used by the library). -/
inductive DijErr where
  | keyError (k : String)
  | fuelOut
deriving DecidableEq

/-- One heap entry `(distance, node)`. -/
abbrev PQE := ℚ × String

/-- The tuple order `(d, u) <= (d', u')` used by `heapq`: lexicographic,
strings compared as Python compares them (code-point order). -/
def entryLe (a b : PQE) : Bool :=
  decide (a.1 < b.1) || (decide (a.1 = b.1) && !decide (b.2 < a.2))

/-- `heapq.heappop`: remove and return the least entry in tuple order. -/
def popMin : List PQE → Option (PQE × List PQE)
  | [] => none
  | e :: es =>
    match popMin es with
    | none => some (e, es)
    | some (m, rest) => if entryLe e m then some (e, es) else some (m, e :: rest)

/-- The relaxation loop `for v, w in graph[u].items()` of `shortest_paths`,
threading `dist`, `prev` and the heap.  `d` is the distance at which `u` was
popped. -/
def relaxAll (d : ℚ) (u : String) :
    List (String × ℚ) → Dict (WithTop ℚ) → Dict (Option String) → List PQE →
    Except DijErr (Dict (WithTop ℚ) × Dict (Option String) × List PQE)
  | [], dist, prev, pq => .ok (dist, prev, pq)
  | (v, w) :: es, dist, prev, pq =>
    match dist.find? v with
    | none => .error (.keyError v)
    | some dv =>
      let nd := d + w
      if (nd : WithTop ℚ) < dv then
        relaxAll d u es (dist.insert v (nd : WithTop ℚ))
          (prev.insert v (some u)) (pq ++ [(nd, v)])
      else relaxAll d u es dist prev pq

/-- The `while pq:` loop of `shortest_paths`: pop the least entry, skip it
when already visited, otherwise look up the adjacency (`KeyError` when the
node is not a graph key) and relax every outgoing edge. -/
def dijkstraLoop (g : Graph) :
    Nat → Dict (WithTop ℚ) → Dict (Option String) → List PQE → List String →
    Except DijErr (Dict (WithTop ℚ) × Dict (Option String))
  | _, dist, prev, [], _ => .ok (dist, prev)
  | fuel, dist, prev, pq, visited =>
    match popMin pq with
    | none => .ok (dist, prev)
    | some ((d, u), rest) =>
      match fuel with
      | 0 => .error .fuelOut
      | fuel + 1 =>
        if u ∈ visited then dijkstraLoop g fuel dist prev rest visited
        else
          match g.find? u with
          | none => .error (.keyError u)
          | some adj =>
            match relaxAll d u adj dist prev rest with
            | .error e => .error e
            | .ok (dist', prev', pq') =>
              dijkstraLoop g fuel dist' prev' pq' (u :: visited)

/-- The total number of adjacency entries of `g` (used only to size the
fuel of the embedded loop). -/
def totalAdj (g : Graph) : Nat := (g.map (fun p => p.2.length)).sum

/-- `shortest_paths` of `Dijkstra/dijkstra.py`: `dist` starts at `INF` on
every graph key with `dist[source] = 0.0`, `prev` at `None`, the heap at
`[(0.0, source)]`. -/
def shortest_paths (g : Graph) (source : String) :
    Except DijErr (Dict (WithTop ℚ) × Dict (Option String)) :=
  let dist0 : Dict (WithTop ℚ) := g.keys.map (fun v => (v, ⊤))
  let dist := dist0.insert source ((0 : ℚ) : WithTop ℚ)
  let prev : Dict (Option String) := g.keys.map (fun v => (v, none))
  dijkstraLoop g (1 + g.length * (1 + totalAdj g)) dist prev [(0, source)] []

/-- The `while cur is not None:` walk of `reconstruct_path`, fueled (`none`
models non-termination of the Python loop, which cannot occur on a `prev`
produced by `shortest_paths`). -/
def reconstruct_go (prev : Dict (Option String)) (source : String) :
    Nat → String → List String → Option (List String)
  | 0, _, _ => none
  | fuel + 1, cur, path =>
    let path := path ++ [cur]
    if cur = source then some path
    else
      match prev.find? cur with
      | some (some nxt) => reconstruct_go prev source fuel nxt path
      | _ => some path

/-- `reconstruct_path` of `Dijkstra/dijkstra.py`: `[source]` when
`source == dest`, otherwise walk `prev` from `dest`, reverse, and return `[]`
unless the walk reached `source`. -/
def reconstruct_path (prev : Dict (Option String)) (source dest : String)
    (fuel : Nat) : Option (List String) :=
  if source = dest then some [source]
  else
    match reconstruct_go prev source fuel dest [] with
    | none => none
    | some path =>
      let p := path.reverse
      if p.head? = some source then some p else some []

/-- The `for dest in graph.keys():` loop of `build_next_hop_table`,
accumulating `next_hop` and `full_paths`. -/
def nextHopGo (prev : Dict (Option String)) (source : String) (fuel : Nat) :
    List String → Dict String → Dict (List String) →
    Option (Dict String × Dict (List String))
  | [], nh, fp => some (nh, fp)
  | dest :: rest, nh, fp =>
    if dest = source then nextHopGo prev source fuel rest nh fp
    else
      match reconstruct_path prev source dest fuel with
      | none => none
      | some path =>
        let fp' := fp.insert dest path
        let nh' :=
          match path with
          | _ :: p1 :: _ => nh.insert dest p1
          | _ => nh
        nextHopGo prev source fuel rest nh' fp'

/-- `build_next_hop_table` of `Dijkstra/dijkstra.py`: run `shortest_paths`,
then reconstruct the path of every destination and record `path[1]` as its
next hop when the path has at least two nodes. -/
def build_next_hop_table (g : Graph) (source : String) :
    Except DijErr (Dict String × Dict (WithTop ℚ) × Dict (List String)) :=
  match shortest_paths g source with
  | .error e => .error e
  | .ok (dist, prev) =>
    match nextHopGo prev source (g.length + 1) g.keys [] [] with
    | none => .error .fuelOut
    | some (nh, fp) => .ok (nh, dist, fp)

/-! ### Specification vocabulary for the solver -/

/-- The weight of the edge `u → v` of `g`, when present. -/
def edgeWeight (g : Graph) (u v : String) : Option ℚ :=
  (g.find? u).bind (fun adj => adj.find? v)

/-- `PathW g s v c`: some directed path of `g` from `s` to `v` has total
weight `c`. -/
inductive PathW (g : Graph) (s : String) : String → ℚ → Prop
  | refl : PathW g s s 0
  | snoc {u v : String} {w c : ℚ} :
      PathW g s u c → edgeWeight g u v = some w → PathW g s v (c + w)

/-- `v` is reachable from `s` in `g`. -/
def Reachable (g : Graph) (s v : String) : Prop := ∃ c, PathW g s v c

/-- Well-formedness inherited from Python dicts: an adjacency dict has no
repeated keys. -/
def Graph.WF (g : Graph) : Prop :=
  ∀ u adj, g.find? u = some adj → (adj.map Prod.fst).Nodup

/-- Every edge target is a graph key (the claims' "every edge endpoint
appears as a key"). -/
def Graph.Closed (g : Graph) : Prop :=
  ∀ u adj, g.find? u = some adj → ∀ p ∈ adj, (g.find? p.1).isSome

/-- All edge weights are non-negative. -/
def Graph.Nonneg (g : Graph) : Prop :=
  ∀ u adj, g.find? u = some adj → ∀ p ∈ adj, 0 ≤ p.2

/-- The edge `p` out of `u` needs no further relaxation under `dist`. -/
def RelaxedAt (dist : Dict (WithTop ℚ)) (u : String) (p : String × ℚ) :
    Prop :=
  ∃ du dv, dist.find? u = some du ∧ dist.find? p.1 = some dv ∧
    dv ≤ du + (p.2 : WithTop ℚ)

/-- Every edge out of every listed node is relaxed under `dist`. -/
def RelaxedAll (g : Graph) (dist : Dict (WithTop ℚ))
    (visited : List String) : Prop :=
  ∀ u ∈ visited, ∀ adj, g.find? u = some adj → ∀ p ∈ adj, RelaxedAt dist u p

/-- The loop invariant of `dijkstraLoop` except edge relaxation (which is
only partially established while a node's adjacency is being processed). -/
structure DijInvCore (g : Graph) (s : String) (dist : Dict (WithTop ℚ))
    (prev : Dict (Option String)) (pq : List PQE) (visited : List String) :
    Prop where
  domDist : ∀ v, (dist.find? v).isSome ↔ (g.find? v).isSome
  domPrev : ∀ v, (prev.find? v).isSome ↔ (g.find? v).isSome
  pqDom : ∀ e ∈ pq, (g.find? e.2).isSome
  visDom : ∀ x ∈ visited, (g.find? x).isSome
  visNodup : visited.Nodup
  distSound : ∀ v (c : ℚ), dist.find? v = some (c : WithTop ℚ) → PathW g s v c
  pqSound : ∀ e ∈ pq, PathW g s e.2 e.1
  pqDistLe : ∀ e ∈ pq, ∃ dv, dist.find? e.2 = some dv ∧ dv ≤ (e.1 : WithTop ℚ)
  pqVisLe : ∀ e ∈ pq, ∀ x ∈ visited,
    ∃ dx, dist.find? x = some dx ∧ dx ≤ (e.1 : WithTop ℚ)
  pending : ∀ x, x ∉ visited → ∀ c : ℚ,
    dist.find? x = some (c : WithTop ℚ) → (c, x) ∈ pq
  distS : dist.find? s = some ((0 : ℚ) : WithTop ℚ)
  prevS : prev.find? s = some none
  prevTop : ∀ v, dist.find? v = some (⊤ : WithTop ℚ) → prev.find? v = some none
  prevFinite : ∀ v (c : ℚ), v ≠ s → dist.find? v = some (c : WithTop ℚ) →
    ∃ u, prev.find? v = some (some u)
  prevLink : ∀ v u, prev.find? v = some (some u) →
    ∃ w du dv, edgeWeight g u v = some w ∧
      dist.find? u = some ((du : ℚ) : WithTop ℚ) ∧
      dist.find? v = some ((dv : ℚ) : WithTop ℚ) ∧ dv = du + w ∧ u ∈ visited ∧
      (v ∈ visited → visited.indexOf v < visited.indexOf u)

/-- The full loop invariant. -/
def DijInv (g : Graph) (s : String) (dist : Dict (WithTop ℚ))
    (prev : Dict (Option String)) (pq : List PQE) (visited : List String) :
    Prop :=
  DijInvCore g s dist prev pq visited ∧ RelaxedAll g dist visited

/-- What holds of `(dist, prev)` when the loop has drained its heap. -/
structure DijFacts (g : Graph) (s : String) (dist : Dict (WithTop ℚ))
    (prev : Dict (Option String)) : Prop where
  domDist : ∀ v, (dist.find? v).isSome ↔ (g.find? v).isSome
  domPrev : ∀ v, (prev.find? v).isSome ↔ (g.find? v).isSome
  distS : dist.find? s = some ((0 : ℚ) : WithTop ℚ)
  prevS : prev.find? s = some none
  sound : ∀ v (c : ℚ), dist.find? v = some (c : WithTop ℚ) → PathW g s v c
  complete : ∀ v (c' : ℚ), PathW g s v c' →
    ∃ c : ℚ, dist.find? v = some (c : WithTop ℚ) ∧ c ≤ c'
  unreachTop : ∀ v, (g.find? v).isSome → ¬ Reachable g s v →
    dist.find? v = some (⊤ : WithTop ℚ)
  prevTop : ∀ v, dist.find? v = some (⊤ : WithTop ℚ) → prev.find? v = some none
  prevLink : ∀ v (c : ℚ), v ≠ s → dist.find? v = some (c : WithTop ℚ) →
    ∃ u w du, prev.find? v = some (some u) ∧ edgeWeight g u v = some w ∧
      dist.find? u = some ((du : ℚ) : WithTop ℚ) ∧ du + w = c
  ranked : ∃ rank : String → Nat, (∀ v, rank v ≤ g.length) ∧
    ∀ v u, prev.find? v = some (some u) → rank u < rank v

/-- The `next_hop` update of `build_next_hop_table`: the second element of
the path when it has one, otherwise the previous value. -/
def headNext (q : List String) (x : Option String) : Option String :=
  match q with
  | _ :: p1 :: _ => some p1
  | _ => x

/-! ## Dictionary lemmas -/

namespace Dict

theorem find?_insert_self {α : Type} (d : Dict α) (k : String) (v : α) :
    (d.insert k v).find? k = some v := by
  induction d with
  | nil => simp [insert, find?]
  | cons hd tl ih =>
    by_cases h : hd.1 = k
    · simp [insert, h, find?]
    · simp [insert, h, find?, ih]

theorem find?_insert_ne {α : Type} (d : Dict α) (k k' : String) (v : α)
    (h : k ≠ k') : (d.insert k v).find? k' = d.find? k' := by
  induction d with
  | nil => simp [insert, find?, h]
  | cons hd tl ih =>
    by_cases hh : hd.1 = k
    · simp [insert, hh, find?, h]
    · simp [insert, hh, find?, ih]

theorem isSome_find?_insert {α : Type} (d : Dict α) (k k' : String) (v : α)
    (hk : (d.find? k).isSome) :
    ((d.insert k v).find? k').isSome ↔ (d.find? k').isSome := by
  by_cases h : k = k'
  · subst h
    simp [find?_insert_self, hk]
  · rw [find?_insert_ne d k k' v h]

theorem mem_of_find?_eq_some {α : Type} {d : Dict α} {k : String} {v : α}
    (h : d.find? k = some v) : (k, v) ∈ d := by
  induction d with
  | nil => simp [find?] at h
  | cons hd tl ih =>
    obtain ⟨hk, hv⟩ := hd
    by_cases hh : hk = k
    · subst hh
      simp [find?] at h
      subst h
      exact List.mem_cons_self _ _
    · simp only [find?, if_neg hh] at h
      exact List.mem_cons_of_mem _ (ih h)

theorem isSome_find?_iff_mem_keys {α : Type} (d : Dict α) (k : String) :
    (d.find? k).isSome ↔ k ∈ d.keys := by
  induction d with
  | nil => simp [find?, keys]
  | cons hd tl ih =>
    by_cases hh : hd.1 = k
    · simp [find?, hh, keys]
    · simp [find?, hh, keys, ih, Ne.symm hh]

theorem find?_eq_some_of_mem {α : Type} {d : Dict α} {k : String} {v : α}
    (hmem : (k, v) ∈ d) (hnd : (d.map Prod.fst).Nodup) : d.find? k = some v := by
  induction d with
  | nil => simp at hmem
  | cons hd tl ih =>
    simp only [List.map_cons, List.nodup_cons] at hnd
    rcases List.mem_cons.mp hmem with h | h
    · subst h
      simp [find?]
    · have hk : hd.1 ≠ k := by
        intro he
        exact hnd.1 (he ▸ (List.mem_map.mpr ⟨(k, v), h, rfl⟩))
      rw [find?, if_neg hk]
      exact ih h hnd.2

theorem length_insert_of_isSome {α : Type} (d : Dict α) (k : String) (v : α)
    (hk : (d.find? k).isSome) : (d.insert k v).length = d.length := by
  induction d with
  | nil => simp [find?] at hk
  | cons hd tl ih =>
    by_cases hh : hd.1 = k
    · simp [insert, hh]
    · rw [find?, if_neg hh] at hk
      simp [insert, hh, ih hk]

theorem find?_map_const {α : Type} (l : List String) (x : α) (k : String) :
    (Dict.find? (l.map (fun v => (v, x))) k) =
      if k ∈ l then some x else none := by
  induction l with
  | nil => simp [find?]
  | cons hd tl ih =>
    by_cases hh : hd = k
    · simp [find?, hh]
    · simp [find?, hh, ih, Ne.symm hh]

end Dict

/-! ## Header rotation and `forward_transform` (claim C1) -/

theorem rotate_headers_eq (headers : List String) (self_id : String) :
    rotate_headers headers self_id HEADERS_MAXLEN =
      takeLast 3 (headers.drop 1 ++ [self_id]) := by
  cases headers <;> simp [rotate_headers, HEADERS_MAXLEN]

/-- C1.  `forward_transform(p, self_id)` returns `None` exactly when
`self_id` occurs in `p`'s headers or `p.ttl - 1 ≤ 0`; otherwise the result
has `ttl = p.ttl - 1`, headers `(p.headers[1:] + [self_id])[-3:]`, and every
other field unchanged. -/
theorem forward_transform_spec (p : Packet) (self_id : String) :
    (forward_transform p self_id = none ↔
      (self_id ∈ p.headers ∨ p.ttl - 1 ≤ 0)) ∧
    ∀ q, forward_transform p self_id = some q →
      q.ttl = p.ttl - 1 ∧
      q.headers = takeLast 3 (p.headers.drop 1 ++ [self_id]) ∧
      q.proto = p.proto ∧ q.ptype = p.ptype ∧ q.src = p.src ∧
      q.dst = p.dst ∧ q.payload = p.payload ∧ q.msg_id = p.msg_id := by
  unfold forward_transform
  by_cases hc : should_drop_for_cycle self_id p.headers
  · rw [if_pos hc]
    have hmem : self_id ∈ p.headers := by
      simpa [should_drop_for_cycle] using hc
    exact ⟨by simp [hmem], by simp⟩
  · rw [if_neg hc]
    have hmem : self_id ∉ p.headers := by
      simpa [should_drop_for_cycle] using hc
    by_cases ht : decrement_ttl (some p.ttl) ≤ 0
    · rw [if_pos ht]
      have : p.ttl - 1 ≤ 0 := by
        simp only [decrement_ttl] at ht
        omega
      exact ⟨by simp [hmem, this], by simp⟩
    · rw [if_neg ht]
      have hgt : ¬ (p.ttl - 1 ≤ 0) := by
        simp only [decrement_ttl] at ht
        omega
      have hval : decrement_ttl (some p.ttl) = p.ttl - 1 := by
        simp only [decrement_ttl]
        omega
      refine ⟨by simp [hmem, hgt], ?_⟩
      intro q hq
      simp only [Option.some.injEq] at hq
      subst hq
      simp [hval, rotate_headers_eq]

/-- Witness for C1 at a concrete packet. -/
theorem forward_transform_spec_witness :
    ({ proto := "lsr", ptype := "message", src := "A", dst := "B", ttl := 4,
       headers := ["C"], payload := "p", msg_id := "id" } : Packet).ttl =
      (5 : Int) - 1 := by
  have h := (forward_transform_spec
    { proto := "lsr", ptype := "message", src := "A", dst := "B", ttl := 5,
      headers := ["A"], payload := "p", msg_id := "id" } "C").2
    { proto := "lsr", ptype := "message", src := "A", dst := "B", ttl := 4,
      headers := ["C"], payload := "p", msg_id := "id" } (by decide)
  exact h.1

/-! ## The frame property of `forward_transform` (claim C10) -/

/-- C10.  `forward_transform` never mutates its argument: every object that
existed in the store before the call — in particular the packet `r` itself —
is unchanged afterwards, and when a packet is returned it is a fresh object
distinct from `r` whose stored value is the functional `forward_transform`
of the input.  The returned reference is `none` exactly when the functional
version returns `none`. -/
theorem forward_transform_st_frame (st : PacketStore) (r : Nat)
    (self_id : String) (hr : r < st.length) :
    (∀ i, i < st.length →
      (forward_transform_st st r self_id).1.get? i = st.get? i) ∧
    ((forward_transform_st st r self_id).2 = none ↔
      forward_transform st[r] self_id = none) ∧
    (∀ q, (forward_transform_st st r self_id).2 = some q →
      q ≠ r ∧ (forward_transform_st st r self_id).1.get? q =
        forward_transform st[r] self_id) := by
  have hget2 : st[r]? = some st[r] := List.getElem?_eq_getElem hr
  by_cases hc : should_drop_for_cycle self_id st[r].headers
  · have hres : forward_transform_st st r self_id = (st, none) := by
      simp [forward_transform_st, hget2, hc]
    have hpure : forward_transform st[r] self_id = none := by
      simp [forward_transform, hc]
    rw [hres, hpure]
    simp
  · by_cases ht : decrement_ttl (some st[r].ttl) ≤ 0
    · have hres : forward_transform_st st r self_id = (st, none) := by
        simp [forward_transform_st, hget2, hc, ht]
      have hpure : forward_transform st[r] self_id = none := by
        simp [forward_transform, hc, ht]
      rw [hres, hpure]
      simp
    · have hres : forward_transform_st st r self_id =
          (st ++ [Packet.mk st[r].proto st[r].ptype st[r].src st[r].dst
            (decrement_ttl (some st[r].ttl))
            (rotate_headers st[r].headers self_id HEADERS_MAXLEN)
            st[r].payload st[r].msg_id], some st.length) := by
        simp [forward_transform_st, hget2, hc, ht]
      have hpure : forward_transform st[r] self_id =
          some (Packet.mk st[r].proto st[r].ptype st[r].src st[r].dst
            (decrement_ttl (some st[r].ttl))
            (rotate_headers st[r].headers self_id HEADERS_MAXLEN)
            st[r].payload st[r].msg_id) := by
        simp [forward_transform, hc, ht]
      rw [hres, hpure]
      refine ⟨?_, by simp, ?_⟩
      · intro i hi
        simp only [List.get?_eq_getElem?]
        rw [List.getElem?_append, if_pos hi]
      · intro q hq
        simp only [Option.some.injEq] at hq
        subst hq
        refine ⟨by omega, ?_⟩
        simp only [List.get?_eq_getElem?]
        rw [List.getElem?_concat_length]

/-- Witness for C10 at a concrete one-packet store. -/
theorem forward_transform_st_frame_witness :
    (forward_transform_st
      [{ proto := "lsr", ptype := "message", src := "A", dst := "B", ttl := 5,
         headers := ["A"], payload := "p", msg_id := "id" }] 0 "C").1.get? 0 =
      some { proto := "lsr", ptype := "message", src := "A", dst := "B",
             ttl := 5, headers := ["A"], payload := "p", msg_id := "id" } := by
  have h := (forward_transform_st_frame
    [{ proto := "lsr", ptype := "message", src := "A", dst := "B", ttl := 5,
       headers := ["A"], payload := "p", msg_id := "id" }] 0 "C"
    (by decide)).1 0 (by decide)
  rw [h]
  rfl

/-! ## `LSDB.apply_lsp` (claim C4) -/

theorem apply_lsp_of_none {db : Dict LSRecord} {o : String} {s : Int}
    {L : Dict ℚ} {t : ℚ} (h : db.find? o = none) :
    apply_lsp db o s L t = (true, db.insert o ⟨s, L, t⟩) := by
  simp [apply_lsp, h]

theorem apply_lsp_of_gt {db : Dict LSRecord} {o : String} {s : Int}
    {L : Dict ℚ} {t : ℚ} {cur : LSRecord} (h : db.find? o = some cur)
    (hs : s > cur.seq) :
    apply_lsp db o s L t = (true, db.insert o ⟨s, L, t⟩) := by
  simp [apply_lsp, h, hs]

theorem apply_lsp_of_le {db : Dict LSRecord} {o : String} {s : Int}
    {L : Dict ℚ} {t : ℚ} {cur : LSRecord} (h : db.find? o = some cur)
    (hs : ¬ s > cur.seq) :
    apply_lsp db o s L t = (false, db) := by
  simp [apply_lsp, h, hs]

/-- C4.  A first `apply_lsp` that stored a record leaves `{seq := s1,
links := L1, ts := t1}` for the origin; a subsequent `apply_lsp` with `s2`
overwrites it with `{s2, L2, t2}` and returns `true` exactly when `s2 > s1`,
and returns `false` leaving the whole database unchanged otherwise; an
origin with no prior record is always stored with result `true`. -/
theorem apply_lsp_spec (db : Dict LSRecord) (o : String) (s1 s2 : Int)
    (L1 L2 : Dict ℚ) (t1 t2 : ℚ)
    (hfresh : (apply_lsp db o s1 L1 t1).1 = true) :
    (db.find? o = none → apply_lsp db o s1 L1 t1 =
      (true, db.insert o ⟨s1, L1, t1⟩)) ∧
    (apply_lsp db o s1 L1 t1).2.find? o = some ⟨s1, L1, t1⟩ ∧
    (s2 > s1 →
      (apply_lsp (apply_lsp db o s1 L1 t1).2 o s2 L2 t2).1 = true ∧
      (apply_lsp (apply_lsp db o s1 L1 t1).2 o s2 L2 t2).2.find? o =
        some ⟨s2, L2, t2⟩) ∧
    (s2 ≤ s1 →
      (apply_lsp (apply_lsp db o s1 L1 t1).2 o s2 L2 t2).1 = false ∧
      (apply_lsp (apply_lsp db o s1 L1 t1).2 o s2 L2 t2).2 =
        (apply_lsp db o s1 L1 t1).2) := by
  have hstored : (apply_lsp db o s1 L1 t1).2.find? o = some ⟨s1, L1, t1⟩ := by
    match hdb : db.find? o with
    | none =>
      rw [apply_lsp_of_none hdb]
      exact Dict.find?_insert_self db o ⟨s1, L1, t1⟩
    | some cur =>
      by_cases hs : s1 > cur.seq
      · rw [apply_lsp_of_gt hdb hs]
        exact Dict.find?_insert_self db o ⟨s1, L1, t1⟩
      · rw [apply_lsp_of_le hdb hs] at hfresh
        simp at hfresh
  refine ⟨fun h => apply_lsp_of_none h, hstored, ?_, ?_⟩
  · intro hgt
    rw [apply_lsp_of_gt hstored (by simpa using hgt)]
    exact ⟨rfl, Dict.find?_insert_self (apply_lsp db o s1 L1 t1).2 o
      (LSRecord.mk s2 L2 t2)⟩
  · intro hle
    rw [apply_lsp_of_le hstored (by show ¬ s2 > s1; omega)]
    exact ⟨rfl, rfl⟩

/-- Witness for C4 at concrete values. -/
theorem apply_lsp_spec_witness :
    (apply_lsp (apply_lsp [] "A" 1 [("B", 1)] 0).2 "A" 2 [("C", 1)] 7).1 =
      true := by
  have h := apply_lsp_spec [] "A" 1 2 [("B", 1)] [("C", 1)] 0 7 (by decide)
  exact (h.2.2.1 (by decide)).1

/-! ## `sanitize_incoming` (claim C6) -/

/-- C6, counterexample.  The claimed failure condition (fail exactly on
non-mapping, missing required field, non-integral ttl, or headers neither
sequence nor mapping — with `msg_id`/`payload` defaulted on success) does not
characterize `sanitize_incoming` of `Dijkstra/protocols.py`: a packet with
all six structural fields, list headers and integral ttl but no `msg_id`
satisfies the claimed condition yet is rejected. -/
theorem sanitize_claim_counterexample :
    ¬ (∀ raw : JVal,
        ((sanitize_d raw).isSome = true ↔ claimedSanitizeOk raw = true)) := by
  intro h
  have h0 := (h (.obj [("proto", .str "lsr"), ("type", .str "message"),
    ("from", .str "A"), ("to", .str "B"), ("ttl", .int 5),
    ("headers", .arr []), ("payload", .obj [])])).mpr (by decide)
  exact absurd h0 (by decide)

/-- C6, amended.  The Dijkstra sanitizer succeeds exactly on a mapping with
all eight required fields present, list-shaped headers and an integral ttl,
normalizing the four string fields, the ttl and the headers and passing
`payload`/`msg_id` through; the LSR sanitizer succeeds exactly on a mapping
whose ttl, when present, is integral, normalizing present fields, defaulting
absent ones, extracting the trail from list- or dict-shaped headers (else
`[]`), keeping a truthy `msg_id`, else copying a truthy `msg_id` out of
dict-shaped headers, else generating a fresh one, and defaulting `payload`
to an empty mapping. -/
theorem sanitize_spec (raw : JVal) (fresh : String) :
    ((sanitize_d raw).isSome = true ↔
      ∃ kvs, raw = .obj kvs ∧
        (∀ k ∈ REQUIRED_FIELDS, (Dict.find? kvs k).isSome = true) ∧
        (∃ xs, Dict.find? kvs "headers" = some (.arr xs)) ∧
        (∃ v n, Dict.find? kvs "ttl" = some v ∧ pyInt? v = some n)) ∧
    ((sanitize_l raw fresh).isSome = true ↔
      ∃ kvs, raw = .obj kvs ∧
        (∀ v, Dict.find? kvs "ttl" = some v → (pyInt? v).isSome = true)) ∧
    (∀ kvs p, raw = .obj kvs → sanitize_d raw = some p →
      p.proto = pyStr ((Dict.find? kvs "proto").getD .null) ∧
      p.ptype = pyStr ((Dict.find? kvs "type").getD .null) ∧
      p.src = pyStr ((Dict.find? kvs "from").getD .null) ∧
      p.dst = pyStr ((Dict.find? kvs "to").getD .null) ∧
      (Dict.find? kvs "ttl").bind pyInt? = some p.ttl ∧
      (∀ xs, Dict.find? kvs "headers" = some (.arr xs) →
        p.headers = normalize_headers_j xs) ∧
      Dict.find? kvs "payload" = some p.payload ∧
      Dict.find? kvs "msg_id" = some p.msg_id) ∧
    (∀ kvs p, raw = .obj kvs → sanitize_l raw fresh = some p →
      p.proto = ((Dict.find? kvs "proto").map pyStr).getD "lsr" ∧
      p.ptype = ((Dict.find? kvs "type").map pyStr).getD "message" ∧
      p.src = ((Dict.find? kvs "from").map pyStr).getD "?" ∧
      p.dst = ((Dict.find? kvs "to").map pyStr).getD "broadcast" ∧
      (Dict.find? kvs "ttl" = none → p.ttl = 5) ∧
      (∀ v, Dict.find? kvs "ttl" = some v → pyInt? v = some p.ttl) ∧
      p.headers = extract_trail ((Dict.find? kvs "headers").getD .null) ∧
      p.payload = (Dict.find? kvs "payload").getD (.obj []) ∧
      (∀ v, Dict.find? kvs "msg_id" = some v → pyTruthy v = true →
        p.msg_id = v) ∧
      (Dict.find? kvs "msg_id" = none →
        (∃ hkvs hv, (Dict.find? kvs "headers").getD .null = .obj hkvs ∧
          Dict.find? hkvs "msg_id" = some hv ∧ pyTruthy hv = true ∧
          p.msg_id = .str (pyStr hv)) ∨
        p.msg_id = .str fresh)) := by
  refine ⟨?_, ?_, ?_, ?_⟩
  · cases raw with
    | obj kvs =>
      constructor
      · intro hsome
        simp only [sanitize_d] at hsome
        split at hsome
        on_goal 2 => simp at hsome
        split at hsome
        case _ hall _ xs hh =>
          split at hsome
          case _ n ht =>
            refine ⟨kvs, rfl, by simpa [List.all_eq_true] using hall,
              ⟨xs, hh⟩, ?_⟩
            rcases hv : Dict.find? kvs "ttl" with - | v
            · rw [hv] at ht
              simp at ht
            · rw [hv] at ht
              exact ⟨v, n, rfl, by simpa using ht⟩
          case _ => simp at hsome
        all_goals simp at hsome
      · rintro ⟨kvs', hk, hall, ⟨xs, hh⟩, ⟨v, n, hv, hn⟩⟩
        injection hk with hk
        subst hk
        simp only [sanitize_d]
        rw [if_pos (by simpa [List.all_eq_true] using hall), hh, hv]
        simp [hn]
    | null => exact ⟨fun h => by simp [sanitize_d] at h,
        fun ⟨kvs, h, _⟩ => JVal.noConfusion h⟩
    | str s => exact ⟨fun h => by simp [sanitize_d] at h,
        fun ⟨kvs, h, _⟩ => JVal.noConfusion h⟩
    | int n => exact ⟨fun h => by simp [sanitize_d] at h,
        fun ⟨kvs, h, _⟩ => JVal.noConfusion h⟩
    | arr xs => exact ⟨fun h => by simp [sanitize_d] at h,
        fun ⟨kvs, h, _⟩ => JVal.noConfusion h⟩
  · cases raw with
    | obj kvs =>
      constructor
      · intro hsome
        refine ⟨kvs, rfl, ?_⟩
        intro v hv
        simp only [sanitize_l, hv] at hsome
        rcases hp : pyInt? v with - | n
        · rw [hp] at hsome
          simp at hsome
        · simp
      · rintro ⟨kvs', hk, httl⟩
        injection hk with hk
        subst hk
        simp only [sanitize_l]
        rcases hv : Dict.find? kvs "ttl" with - | v
        · simp
        · rcases hp : pyInt? v with - | n
          · have := httl v hv
            rw [hp] at this
            simp at this
          · simp [hp]
    | null => exact ⟨fun h => by simp [sanitize_l] at h,
        fun ⟨kvs, h, _⟩ => JVal.noConfusion h⟩
    | str s => exact ⟨fun h => by simp [sanitize_l] at h,
        fun ⟨kvs, h, _⟩ => JVal.noConfusion h⟩
    | int n => exact ⟨fun h => by simp [sanitize_l] at h,
        fun ⟨kvs, h, _⟩ => JVal.noConfusion h⟩
    | arr xs => exact ⟨fun h => by simp [sanitize_l] at h,
        fun ⟨kvs, h, _⟩ => JVal.noConfusion h⟩
  · rintro kvs p rfl hp
    simp only [sanitize_d] at hp
    split at hp
    on_goal 2 => simp at hp
    split at hp
    case _ hall _ xs hh =>
      split at hp
      case _ n ht =>
        simp only [Option.some.injEq] at hp
        subst hp
        have hpl : (Dict.find? kvs "payload").isSome = true := by
          have := List.all_eq_true.mp hall "payload" (by simp [REQUIRED_FIELDS])
          simpa using this
        have hmid : (Dict.find? kvs "msg_id").isSome = true := by
          have := List.all_eq_true.mp hall "msg_id" (by simp [REQUIRED_FIELDS])
          simpa using this
        obtain ⟨pl, hpl⟩ := Option.isSome_iff_exists.mp hpl
        obtain ⟨mid, hmid⟩ := Option.isSome_iff_exists.mp hmid
        refine ⟨rfl, rfl, rfl, rfl, ht, ?_, ?_, ?_⟩
        · intro xs' hh'
          rw [hh] at hh'
          simp only [Option.some.injEq, JVal.arr.injEq] at hh'
          simp [hh, hh']
        · simp [hpl]
        · simp [hmid]
      case _ => simp at hp
    all_goals simp at hp
  · rintro kvs p rfl hp
    simp only [sanitize_l] at hp
    split at hp
    · simp at hp
    · rename_i ttlVal heq
      simp only [Option.some.injEq] at hp
      subst hp
      split at heq
      · rename_i v hfind
        rcases hn : pyInt? v with - | n
        · rw [hn] at heq
          simp at heq
        · rw [hn] at heq
          simp at heq
          subst heq
          rw [hfind]
          refine ⟨rfl, rfl, rfl, rfl, by simp, ?_, rfl, rfl, ?_, ?_⟩
          · intro v' hv'
            simp only [Option.some.injEq] at hv'
            subst hv'
            simpa using hn
          · intro v2 hm htr
            simp only [hm]
            simp [htr]
          · intro hm
            rw [hm]
            rcases hh : (Dict.find? kvs "headers").getD .null with - | s | nn | xs | hkvs
            · right
              simp
            · right
              simp
            · right
              simp
            · right
              simp
            · rcases hmid : Dict.find? hkvs "msg_id" with - | hv2
              · right
                simp [hmid]
              · by_cases htr : pyTruthy hv2 = true
                · left
                  exact ⟨hkvs, hv2, rfl, hmid, htr, by simp [hmid, htr]⟩
                · right
                  simp only [Bool.not_eq_true] at htr
                  simp [hmid, htr]
      · rename_i hfind
        simp only [Option.some.injEq] at heq
        subst heq
        rw [hfind]
        refine ⟨rfl, rfl, rfl, rfl, fun _ => rfl, by simp, rfl, rfl, ?_, ?_⟩
        · intro v2 hm htr
          simp only [hm]
          simp [htr]
        · intro hm
          rw [hm]
          rcases hh : (Dict.find? kvs "headers").getD .null with - | s | nn | xs | hkvs
          · right
            simp
          · right
            simp
          · right
            simp
          · right
            simp
          · rcases hmid : Dict.find? hkvs "msg_id" with - | hv2
            · right
              simp [hmid]
            · by_cases htr : pyTruthy hv2 = true
              · left
                exact ⟨hkvs, hv2, rfl, hmid, htr, by simp [hmid, htr]⟩
              · right
                simp only [Bool.not_eq_true] at htr
                simp [hmid, htr]

/-- Witness for C6 at a concrete legacy packet: dict-shaped headers and a
string ttl pass the LSR sanitizer. -/
theorem sanitize_spec_witness :
    (sanitize_l (.obj [("ttl", .int 7),
      ("headers", .obj [("trail", .arr [.str "A", .null, .str "B"])])])
      "gen").isSome = true := by
  refine (sanitize_spec (.obj [("ttl", .int 7),
    ("headers", .obj [("trail", .arr [.str "A", .null, .str "B"])])])
    "gen").2.1.mpr ⟨_, rfl, ?_⟩
  intro v hv
  simp only [Dict.find?, reduceIte, Option.some.injEq] at hv
  subst hv
  decide

/-! ## `originate_lsp` (claim C7) -/

/-- C7, counterexample.  The LSP packet built by `originate_lsp` carries
`to = "*"`, not the wire constant `broadcast` the claim states. -/
theorem originate_lsp_claim_counterexample :
    (originate_lsp (LsrState.mk "A" 0 ["B"] "hop" (fun _ => none)) "m1").2.mto
        ≠ "broadcast" ∧
    (originate_lsp (LsrState.mk "A" 0 ["B"] "hop" (fun _ => none)) "m1").2.mto
        = "*" := by
  constructor
  · intro h
    exact absurd h (by decide)
  · rfl

/-- C7, amended.  Every `originate_lsp` call increments the node's sequence
number by exactly one (so over `n` calls the sequence is `seq₀ + n`, strictly
increasing), and constructs an `lsp` packet with `to = "*"` (the engine's
broadcast marker, not the literal `broadcast`), `ttl = 16`, and payload
`{origin := self, seq, links}` with `links` assigning cost 1 to every
configured neighbor under the `hop` metric. -/
theorem originate_lsp_spec (st : LsrState) (fresh : String) :
    (originate_lsp st fresh).1.seq = st.seq + 1 ∧
    (∀ n : Nat, (originateIter st n).seq = st.seq + (n : Int)) ∧
    (∀ m n : Nat, m < n →
      (originateIter st m).seq < (originateIter st n).seq) ∧
    (originate_lsp st fresh).2.proto = "lsr" ∧
    (originate_lsp st fresh).2.ptype = "lsp" ∧
    (originate_lsp st fresh).2.mfrom = st.selfId ∧
    (originate_lsp st fresh).2.mto = "*" ∧
    (originate_lsp st fresh).2.ttl = 16 ∧
    (originate_lsp st fresh).2.origin = st.selfId ∧
    (originate_lsp st fresh).2.seq = st.seq + 1 ∧
    (originate_lsp st fresh).2.msg_id = fresh ∧
    (st.metric = "hop" →
      (originate_lsp st fresh).2.links =
        st.neighbors.map (fun nb => (nb, (1 : ℚ)))) := by
  have hiter : ∀ n : Nat, (originateIter st n).seq = st.seq + (n : Int) := by
    intro n
    induction n with
    | zero => simp [originateIter]
    | succ n ih =>
      simp only [originateIter, originate_lsp, ih]
      push_cast
      ring
  refine ⟨rfl, hiter, ?_, rfl, rfl, rfl, rfl, rfl, rfl, rfl, rfl, ?_⟩
  · intro m n hmn
    rw [hiter m, hiter n]
    omega
  · intro hm
    simp only [originate_lsp, hm]
    rfl

/-- Witness for C7: three successive originations on a concrete router
state give strictly increasing sequence numbers. -/
theorem originate_lsp_spec_witness :
    (originateIter (LsrState.mk "A" 0 ["B", "C"] "hop" (fun _ => none)) 1).seq
      < (originateIter
          (LsrState.mk "A" 0 ["B", "C"] "hop" (fun _ => none)) 3).seq := by
  exact (originate_lsp_spec
    (LsrState.mk "A" 0 ["B", "C"] "hop" (fun _ => none)) "x").2.2.1 1 3
    (by decide)

/-! ## The LSR `message` forwarding branch (claim C5) -/

/-- C5, counterexample.  When the LSR engine forwards a `message` it does
not apply `forward_transform`: the trail keeps its first element (`["A"]`
becomes `["A","C"]` where the rotation gives `["C"]`), and a packet whose
decremented ttl is 0 is still sent although the forward transform drops it. -/
theorem lsr_forward_claim_counterexample :
    on_receive_message "C" ["B"] [("D", "B")]
        (LMsg.mk "A" "D" 5 ["A"] none "p" "id") (some "B") =
      .send "B" (LMsg.mk "A" "D" 4 ["A", "C"] (some "C") "p" "id") ∧
    rotate_headers ["A"] "C" HEADERS_MAXLEN = ["C"] ∧
    (["A", "C"] : List String) ≠ ["C"] ∧
    on_receive_message "C" ["B"] [("D", "B")]
        (LMsg.mk "A" "D" 1 [] none "p" "id") (some "B") =
      .send "B" (LMsg.mk "A" "D" 0 ["C"] (some "C") "p" "id") ∧
    decrement_ttl (some 1) ≤ 0 := by
  refine ⟨rfl, rfl, by decide, rfl, by decide⟩

/-- C5, amended.  For a received `message` not addressed to this node with
positive ttl (node ids nonempty): the next hop is `next_hop[to]`, else the
destination itself when it is a direct neighbor, else the first neighbor in
ascending sorted order among neighbors other than the incoming hop, and the
packet is dropped when no candidate remains.  When a hop is resolved the
packet is dropped for a cycle exactly when it was received from the bus and
`self_id` is already in its current trail; otherwise it is sent with
`ttl - 1`, the trail extended by `self_id` and truncated to the last 3
(without dropping the first element), and `last_hop := self_id` — even when
the decremented ttl is 0. -/
theorem on_receive_message_spec (self_id : String) (neighbors : List String)
    (next_hop : Dict String) (msg : LMsg) (incoming : Option String)
    (h1 : msg.mto ≠ self_id) (h2 : 0 < msg.ttl)
    (hnb : "" ∉ neighbors)
    (htb : ∀ v, next_hop.find? msg.mto = some v → v ≠ "") :
    (∀ nh, next_hop.find? msg.mto = some nh →
      ((incoming.isSome = true ∧ self_id ∈ msg.trail) →
        on_receive_message self_id neighbors next_hop msg incoming = .drop) ∧
      (¬ (incoming.isSome = true ∧ self_id ∈ msg.trail) →
        on_receive_message self_id neighbors next_hop msg incoming =
          .send nh (LMsg.mk msg.mfrom msg.mto (msg.ttl - 1)
            (takeLast 3 (msg.trail ++ [self_id])) (some self_id)
            msg.payload msg.mid))) ∧
    (next_hop.find? msg.mto = none → msg.mto ∈ neighbors →
      ((incoming.isSome = true ∧ self_id ∈ msg.trail) →
        on_receive_message self_id neighbors next_hop msg incoming = .drop) ∧
      (¬ (incoming.isSome = true ∧ self_id ∈ msg.trail) →
        on_receive_message self_id neighbors next_hop msg incoming =
          .send msg.mto (LMsg.mk msg.mfrom msg.mto (msg.ttl - 1)
            (takeLast 3 (msg.trail ++ [self_id])) (some self_id)
            msg.payload msg.mid))) ∧
    (next_hop.find? msg.mto = none → msg.mto ∉ neighbors →
      ∀ nh rest,
        (neighbors.filter
            (fun n => decide (some n ≠ incoming))).mergeSort (fun a b => a ≤ b) =
          nh :: rest →
        nh ∈ neighbors.filter (fun n => decide (some n ≠ incoming)) ∧
        (∀ x ∈ neighbors.filter (fun n => decide (some n ≠ incoming)), nh ≤ x) ∧
        ((incoming.isSome = true ∧ self_id ∈ msg.trail) →
          on_receive_message self_id neighbors next_hop msg incoming =
            .drop) ∧
        (¬ (incoming.isSome = true ∧ self_id ∈ msg.trail) →
          on_receive_message self_id neighbors next_hop msg incoming =
            .send nh (LMsg.mk msg.mfrom msg.mto (msg.ttl - 1)
              (takeLast 3 (msg.trail ++ [self_id])) (some self_id)
              msg.payload msg.mid))) ∧
    (next_hop.find? msg.mto = none → msg.mto ∉ neighbors →
      (neighbors.filter
          (fun n => decide (some n ≠ incoming))).mergeSort (fun a b => a ≤ b) =
        [] →
      on_receive_message self_id neighbors next_hop msg incoming = .drop) := by
  have httl : ¬ msg.ttl ≤ 0 := by omega
  refine ⟨?_, ?_, ?_, ?_⟩
  · intro nh hfind
    have hne : nh ≠ "" := htb nh hfind
    constructor
    · rintro ⟨hin, htrail⟩
      simp [on_receive_message, h1, httl, hfind, hne, hin, htrail]
    · intro hnc
      by_cases hin : incoming.isSome = true
      · have htrail : self_id ∉ msg.trail := fun ht => hnc ⟨hin, ht⟩
        simp [on_receive_message, h1, httl, hfind, hne, hin, htrail]
      · simp [on_receive_message, h1, httl, hfind, hne, hin]
  · intro hfind hmem
    have hne : msg.mto ≠ "" := fun he => hnb (he ▸ hmem)
    constructor
    · rintro ⟨hin, htrail⟩
      simp [on_receive_message, h1, httl, hfind, hmem, hne, hin, htrail]
    · intro hnc
      by_cases hin : incoming.isSome = true
      · have htrail : self_id ∉ msg.trail := fun ht => hnc ⟨hin, ht⟩
        simp [on_receive_message, h1, httl, hfind, hmem, hne, hin, htrail]
      · simp [on_receive_message, h1, httl, hfind, hmem, hne, hin]
  · intro hfind hmem nh rest hsort
    have hperm := (neighbors.filter
        (fun n => decide (some n ≠ incoming))).mergeSort_perm (fun a b => a ≤ b)
    have hnh : nh ∈ neighbors.filter (fun n => decide (some n ≠ incoming)) := by
      have : nh ∈ (neighbors.filter
          (fun n => decide (some n ≠ incoming))).mergeSort (fun a b => a ≤ b) := by
        rw [hsort]
        exact List.mem_cons_self _ _
      exact hperm.mem_iff.mp this
    have hsorted := @List.sorted_mergeSort String
      (fun a b : String => (a ≤ b : Bool))
      (fun a b c h1 h2 => by
        simp only [decide_eq_true_eq] at h1 h2 ⊢
        exact le_trans h1 h2)
      (fun a b => by
        simp only [Bool.or_eq_true, decide_eq_true_eq]
        exact le_total a b)
      (neighbors.filter (fun n => decide (some n ≠ incoming)))
    have hmin : ∀ x ∈ neighbors.filter (fun n => decide (some n ≠ incoming)),
        nh ≤ x := by
      intro x hx
      have hx' : x ∈ (neighbors.filter
          (fun n => decide (some n ≠ incoming))).mergeSort (fun a b => a ≤ b) :=
        hperm.mem_iff.mpr hx
      rw [hsort] at hx'
      rcases List.mem_cons.mp hx' with h | h
      · exact le_of_eq h.symm
      · rw [hsort] at hsorted
        have := (List.pairwise_cons.mp hsorted).1 x h
        simpa using this
    have hne : nh ≠ "" := by
      intro he
      exact hnb (he ▸ (List.mem_of_mem_filter hnh))
    refine ⟨hnh, hmin, ?_, ?_⟩
    · rintro ⟨hin, htrail⟩
      simp only [on_receive_message, h1, httl, hfind, hmem]
      rw [hsort]
      simp [hne, hin, htrail]
    · intro hnc
      by_cases hin : incoming.isSome = true
      · have htrail : self_id ∉ msg.trail := fun ht => hnc ⟨hin, ht⟩
        simp only [on_receive_message, h1, httl, hfind, hmem]
        rw [hsort]
        simp [hne, hin, htrail]
      · simp only [on_receive_message, h1, httl, hfind, hmem]
        rw [hsort]
        simp [hne, hin]
  · intro hfind hmem hsort
    simp only [on_receive_message, h1, httl, hfind, hmem]
    rw [hsort]
    simp

/-- Witness for C5: the deterministic fallback on a concrete router state
picks the least non-incoming neighbor and forwards with the extended trail. -/
theorem on_receive_message_spec_witness :
    on_receive_message "C" ["D", "B"] [] (LMsg.mk "A" "E" 5 ["A"] none "p" "id")
        (some "D") =
      .send "B" (LMsg.mk "A" "E" 4 ["A", "C"] (some "C") "p" "id") := by
  have h := (on_receive_message_spec "C" ["D", "B"] []
    (LMsg.mk "A" "E" 5 ["A"] none "p" "id") (some "D")
    (by decide) (by decide) (by decide) (fun v hv => by simp [Dict.find?] at hv)
    ).2.2.1 rfl (by decide) "B" [] (by simp [List.mergeSort])
  exact h.2.2.2 (by decide)

/-! ## Duplicate-filter lemmas (claim C8) -/

namespace Dict

theorem find?_eq_none_iff {α : Type} (d : Dict α) (k : String) :
    d.find? k = none ↔ k ∉ Dict.keys d := by
  rw [← isSome_find?_iff_mem_keys]
  cases d.find? k <;> simp

theorem keys_filter_sublist {α : Type} (d : Dict α) (p : String × α → Bool) :
    (Dict.keys (d.filter p)).Sublist (Dict.keys d) :=
  (List.filter_sublist d).map Prod.fst

theorem nodup_keys_filter {α : Type} {d : Dict α} (p : String × α → Bool)
    (hnd : (Dict.keys d).Nodup) : (Dict.keys (d.filter p)).Nodup :=
  hnd.sublist (keys_filter_sublist d p)

theorem mem_keys_insert {α : Type} (d : Dict α) (k a : String) (v : α) :
    a ∈ Dict.keys (d.insert k v) ↔ a = k ∨ a ∈ Dict.keys d := by
  induction d with
  | nil => simp [insert, keys]
  | cons hd tl ih =>
    obtain ⟨k', v'⟩ := hd
    by_cases hh : k' = k
    · subst hh
      simp [insert, keys]
    · simp only [insert, if_neg hh, keys, List.map_cons, List.mem_cons]
      rw [show List.map Prod.fst (Dict.insert tl k v) =
        Dict.keys (Dict.insert tl k v) from rfl, ih]
      tauto

theorem nodup_keys_insert {α : Type} {d : Dict α} (k : String) (v : α)
    (hnd : (Dict.keys d).Nodup) : (Dict.keys (d.insert k v)).Nodup := by
  induction d with
  | nil => simp [insert, keys]
  | cons hd tl ih =>
    obtain ⟨k', v'⟩ := hd
    simp only [keys, List.map_cons, List.nodup_cons] at hnd
    by_cases hh : k' = k
    · subst hh
      simp only [insert, if_true, keys, List.map_cons, List.nodup_cons]
      exact hnd
    · simp only [insert, if_neg hh, keys, List.map_cons, List.nodup_cons]
      refine ⟨?_, ih hnd.2⟩
      rw [show List.map Prod.fst (Dict.insert tl k v) =
        Dict.keys (Dict.insert tl k v) from rfl, mem_keys_insert]
      push_neg
      exact ⟨hh, hnd.1⟩

theorem find?_filter {α : Type} {d : Dict α} (p : String × α → Bool)
    (k : String) (hnd : (Dict.keys d).Nodup) :
    Dict.find? (d.filter p) k =
      match d.find? k with
      | some v => if p (k, v) then some v else none
      | none => none := by
  induction d with
  | nil => simp [find?]
  | cons hd tl ih =>
    obtain ⟨k', v'⟩ := hd
    simp only [keys, List.map_cons, List.nodup_cons] at hnd
    by_cases hh : k' = k
    · subst hh
      by_cases hp : p (k', v')
      · simp [List.filter_cons, hp, find?]
      · simp only [List.filter_cons, hp, Bool.false_eq_true, if_false,
          find?, if_pos rfl]
        have hnone : Dict.find? (List.filter p tl) k' = none := by
          rw [find?_eq_none_iff]
          intro hmem
          exact hnd.1 ((keys_filter_sublist tl p).mem hmem)
        rw [hnone]
        simp [hp]
    · by_cases hp : p (k', v')
      · simp only [List.filter_cons, hp, if_true, find?, if_neg hh]
        exact ih hnd.2
      · simp only [List.filter_cons, hp, Bool.false_eq_true, if_false,
          find?, if_neg hh]
        exact ih hnd.2

end Dict

namespace ExpSetD

/-- Purge keeps exactly the unexpired entry of each key. -/
theorem purge_find? (s : ExpSetD) (now : ℚ) (k : String)
    (hnd : (Dict.keys s.data).Nodup) :
    Dict.find? (s.purge now).data k =
      match Dict.find? s.data k with
      | some t => if now - t > (s.ttl : ℚ) then none else some t
      | none => none := by
  show Dict.find? (s.data.filter _) k = _
  rw [Dict.find?_filter _ k hnd]
  cases Dict.find? s.data k with
  | none => rfl
  | some t =>
    by_cases hgt : now - t > (s.ttl : ℚ) <;> simp [hgt]

theorem add_if_new_nodup (s : ExpSetD) (k : String) (now : ℚ)
    (hnd : (Dict.keys s.data).Nodup) :
    (Dict.keys (s.add_if_new k now).2.data).Nodup := by
  have hpn : (Dict.keys (s.purge now).data).Nodup :=
    Dict.nodup_keys_filter _ hnd
  simp only [add_if_new]
  cases h : Dict.find? (s.purge now).data k with
  | none => exact Dict.nodup_keys_insert k now hpn
  | some t => exact hpn

theorem add_if_new_ttl (s : ExpSetD) (k : String) (now : ℚ) :
    (s.add_if_new k now).2.ttl = s.ttl := by
  simp only [add_if_new]
  cases h : Dict.find? (s.purge now).data k <;> rfl

/-- A fresh key is reported new and recorded at the call's timestamp. -/
theorem add_if_new_fresh (s : ExpSetD) (k : String) (now : ℚ)
    (h : Dict.find? s.data k = none) :
    (s.add_if_new k now).1 = true ∧
    Dict.find? (s.add_if_new k now).2.data k = some now := by
  have hp : Dict.find? (s.purge now).data k = none := by
    rw [show (s.purge now).data = s.data.filter _ from rfl,
      Dict.find?_eq_none_iff]
    intro hmem
    rw [Dict.find?_eq_none_iff] at h
    exact h ((Dict.keys_filter_sublist s.data _).mem hmem)
  simp only [add_if_new]
  rw [hp]
  exact ⟨rfl, Dict.find?_insert_self _ k now⟩

/-- One `add_if_new` call leaves an unexpired entry of another call's key in
place (and a same-key call reports a duplicate). -/
theorem step_persist (s : ExpSetD) (k : String) (t0 : ℚ) (k' : String)
    (t' : ℚ) (hnd : (Dict.keys s.data).Nodup)
    (hk : Dict.find? s.data k = some t0)
    (hwithin : t' - t0 ≤ (s.ttl : ℚ)) :
    Dict.find? (s.add_if_new k' t').2.data k = some t0 ∧
    (k' = k → (s.add_if_new k' t').1 = false) := by
  have hp : Dict.find? (s.purge t').data k = some t0 := by
    rw [purge_find? s t' k hnd, hk]
    show (if t' - t0 > (s.ttl : ℚ) then none else some t0) = some t0
    rw [if_neg (not_lt.mpr hwithin)]
  simp only [add_if_new]
  by_cases hkk : k' = k
  · subst hkk
    rw [hp]
    exact ⟨hp, fun _ => rfl⟩
  · cases h' : Dict.find? (s.purge t').data k' with
    | none =>
      refine ⟨?_, fun he => absurd he hkk⟩
      rw [Dict.find?_insert_ne _ k' k t' hkk]
      exact hp
    | some t => exact ⟨hp, fun he => absurd he hkk⟩

/-- Running a trace whose calls all happen inside the entry's lifetime keeps
the entry. -/
theorem run_persist (tr : List (String × ℚ)) (s : ExpSetD) (k : String)
    (t0 : ℚ) (hnd : (Dict.keys s.data).Nodup)
    (hk : Dict.find? s.data k = some t0)
    (htr : ∀ p ∈ tr, p.2 - t0 ≤ (s.ttl : ℚ)) :
    Dict.find? (s.run tr).data k = some t0 ∧
    (Dict.keys (s.run tr).data).Nodup ∧ (s.run tr).ttl = s.ttl := by
  induction tr generalizing s with
  | nil => exact ⟨hk, hnd, rfl⟩
  | cons hd tl ih =>
    obtain ⟨k', t'⟩ := hd
    have hstep := step_persist s k t0 k' t' hnd hk
      (htr (k', t') (List.mem_cons_self _ _))
    have hnd' := add_if_new_nodup s k' t' hnd
    have httl := add_if_new_ttl s k' t'
    have hrec := ih (s.add_if_new k' t').2 hnd' hstep.1
      (fun p hp => by rw [httl]; exact htr p (List.mem_cons_of_mem _ hp))
    rw [show ExpSetD.run s ((k', t') :: tl) =
      ExpSetD.run (s.add_if_new k' t').2 tl from rfl]
    exact ⟨hrec.1, hrec.2.1, hrec.2.2.trans httl⟩

/-- Steps on other keys can only keep or drop the entry, never retime it. -/
theorem step_weak (s : ExpSetD) (k : String) (t0 : ℚ) (k' : String) (t' : ℚ)
    (hnd : (Dict.keys s.data).Nodup) (hkk : k' ≠ k)
    (hk : Dict.find? s.data k = some t0 ∨ Dict.find? s.data k = none) :
    (Dict.find? (s.add_if_new k' t').2.data k = some t0 ∨
      Dict.find? (s.add_if_new k' t').2.data k = none) := by
  have hp : Dict.find? (s.purge t').data k = some t0 ∨
      Dict.find? (s.purge t').data k = none := by
    rw [purge_find? s t' k hnd]
    rcases hk with h | h
    · rw [h]
      by_cases hgt : t' - t0 > (s.ttl : ℚ) <;> simp [hgt]
    · rw [h]
      simp
  simp only [add_if_new]
  cases h' : Dict.find? (s.purge t').data k' with
  | none =>
    rw [Dict.find?_insert_ne _ k' k t' hkk]
    exact hp
  | some t => exact hp

theorem run_weak (tr : List (String × ℚ)) (s : ExpSetD) (k : String)
    (t0 : ℚ) (hnd : (Dict.keys s.data).Nodup)
    (htr : ∀ p ∈ tr, p.1 ≠ k)
    (hk : Dict.find? s.data k = some t0 ∨ Dict.find? s.data k = none) :
    (Dict.find? (s.run tr).data k = some t0 ∨
      Dict.find? (s.run tr).data k = none) ∧
    (Dict.keys (s.run tr).data).Nodup ∧ (s.run tr).ttl = s.ttl := by
  induction tr generalizing s with
  | nil => exact ⟨hk, hnd, rfl⟩
  | cons hd tl ih =>
    obtain ⟨k', t'⟩ := hd
    have hstep := step_weak s k t0 k' t' hnd
      (htr (k', t') (List.mem_cons_self _ _)) hk
    have hnd' := add_if_new_nodup s k' t' hnd
    have httl := add_if_new_ttl s k' t'
    have hrec := ih (s.add_if_new k' t').2 hnd'
      (fun p hp => htr p (List.mem_cons_of_mem _ hp)) hstep
    rw [show ExpSetD.run s ((k', t') :: tl) =
      ExpSetD.run (s.add_if_new k' t').2 tl from rfl]
    exact ⟨hrec.1, hrec.2.1, hrec.2.2.trans httl⟩

/-- An expired (or absent) entry makes the next same-key call fresh again. -/
theorem add_if_new_expired (s : ExpSetD) (k : String) (t0 t1 : ℚ)
    (hnd : (Dict.keys s.data).Nodup)
    (hk : Dict.find? s.data k = some t0 ∨ Dict.find? s.data k = none)
    (hexp : t1 - t0 > (s.ttl : ℚ)) : (s.add_if_new k t1).1 = true := by
  have hp : Dict.find? (s.purge t1).data k = none := by
    rw [purge_find? s t1 k hnd]
    rcases hk with h | h
    · rw [h]
      simp [hexp]
    · rw [h]
  simp only [add_if_new]
  rw [hp]

end ExpSetD

namespace ExpSetF

/-- Eviction keeps exactly the entries whose expiry is still in the future. -/
theorem evict_find? (s : ExpSetF) (now : ℚ) (k : String)
    (hnd : (Dict.keys s.data).Nodup) :
    Dict.find? (s.evict now).data k =
      match Dict.find? s.data k with
      | some e => if e ≤ now then none else some e
      | none => none := by
  show Dict.find? (s.data.filter _) k = _
  rw [Dict.find?_filter _ k hnd]
  cases Dict.find? s.data k with
  | none => rfl
  | some e =>
    by_cases hle : e ≤ now <;> simp [hle]

theorem add_if_new_nodupF (s : ExpSetF) (k : String) (now : ℚ)
    (hnd : (Dict.keys s.data).Nodup) :
    (Dict.keys (s.add_if_new k now).2.data).Nodup := by
  have hpn : (Dict.keys (s.evict now).data).Nodup :=
    Dict.nodup_keys_filter _ hnd
  simp only [add_if_new]
  cases h : Dict.find? (s.evict now).data k with
  | none => exact Dict.nodup_keys_insert k (now + s.ttl) hpn
  | some t => exact hpn

theorem add_if_new_ttlF (s : ExpSetF) (k : String) (now : ℚ) :
    (s.add_if_new k now).2.ttl = s.ttl := by
  simp only [add_if_new]
  cases h : Dict.find? (s.evict now).data k <;> rfl

/-- A fresh key is reported new and recorded with expiry `now + ttl`. -/
theorem add_if_new_freshF (s : ExpSetF) (k : String) (now : ℚ)
    (h : Dict.find? s.data k = none) :
    (s.add_if_new k now).1 = true ∧
    Dict.find? (s.add_if_new k now).2.data k = some (now + s.ttl) := by
  have hp : Dict.find? (s.evict now).data k = none := by
    rw [show (s.evict now).data = s.data.filter _ from rfl,
      Dict.find?_eq_none_iff]
    intro hmem
    rw [Dict.find?_eq_none_iff] at h
    exact h ((Dict.keys_filter_sublist s.data _).mem hmem)
  simp only [add_if_new]
  rw [hp]
  exact ⟨rfl, Dict.find?_insert_self _ k (now + s.ttl)⟩

/-- A call before an entry's expiry keeps it (and a same-key call reports a
duplicate). -/
theorem step_persistF (s : ExpSetF) (k : String) (e0 : ℚ) (k' : String)
    (t' : ℚ) (hnd : (Dict.keys s.data).Nodup)
    (hk : Dict.find? s.data k = some e0) (hwithin : t' < e0) :
    Dict.find? (s.add_if_new k' t').2.data k = some e0 ∧
    (k' = k → (s.add_if_new k' t').1 = false) := by
  have hp : Dict.find? (s.evict t').data k = some e0 := by
    rw [evict_find? s t' k hnd, hk]
    show (if e0 ≤ t' then none else some e0) = some e0
    rw [if_neg (not_le.mpr hwithin)]
  simp only [add_if_new]
  by_cases hkk : k' = k
  · subst hkk
    rw [hp]
    exact ⟨hp, fun _ => rfl⟩
  · cases h' : Dict.find? (s.evict t').data k' with
    | none =>
      refine ⟨?_, fun he => absurd he hkk⟩
      rw [Dict.find?_insert_ne _ k' k _ hkk]
      exact hp
    | some t => exact ⟨hp, fun he => absurd he hkk⟩

theorem run_persistF (tr : List (String × ℚ)) (s : ExpSetF) (k : String)
    (e0 : ℚ) (hnd : (Dict.keys s.data).Nodup)
    (hk : Dict.find? s.data k = some e0)
    (htr : ∀ p ∈ tr, p.2 < e0) :
    Dict.find? (s.run tr).data k = some e0 ∧
    (Dict.keys (s.run tr).data).Nodup ∧ (s.run tr).ttl = s.ttl := by
  induction tr generalizing s with
  | nil => exact ⟨hk, hnd, rfl⟩
  | cons hd tl ih =>
    obtain ⟨k', t'⟩ := hd
    have hstep := step_persistF s k e0 k' t' hnd hk
      (htr (k', t') (List.mem_cons_self _ _))
    have hnd' := add_if_new_nodupF s k' t' hnd
    have httl := add_if_new_ttlF s k' t'
    have hrec := ih (s.add_if_new k' t').2 hnd' hstep.1
      (fun p hp => htr p (List.mem_cons_of_mem _ hp))
    rw [show ExpSetF.run s ((k', t') :: tl) =
      ExpSetF.run (s.add_if_new k' t').2 tl from rfl]
    exact ⟨hrec.1, hrec.2.1, hrec.2.2.trans httl⟩

theorem step_weakF (s : ExpSetF) (k : String) (e0 : ℚ) (k' : String) (t' : ℚ)
    (hnd : (Dict.keys s.data).Nodup) (hkk : k' ≠ k)
    (hk : Dict.find? s.data k = some e0 ∨ Dict.find? s.data k = none) :
    (Dict.find? (s.add_if_new k' t').2.data k = some e0 ∨
      Dict.find? (s.add_if_new k' t').2.data k = none) := by
  have hp : Dict.find? (s.evict t').data k = some e0 ∨
      Dict.find? (s.evict t').data k = none := by
    rw [evict_find? s t' k hnd]
    rcases hk with h | h
    · rw [h]
      by_cases hle : e0 ≤ t' <;> simp [hle]
    · rw [h]
      simp
  simp only [add_if_new]
  cases h' : Dict.find? (s.evict t').data k' with
  | none =>
    rw [Dict.find?_insert_ne _ k' k _ hkk]
    exact hp
  | some t => exact hp

theorem run_weakF (tr : List (String × ℚ)) (s : ExpSetF) (k : String)
    (e0 : ℚ) (hnd : (Dict.keys s.data).Nodup)
    (htr : ∀ p ∈ tr, p.1 ≠ k)
    (hk : Dict.find? s.data k = some e0 ∨ Dict.find? s.data k = none) :
    (Dict.find? (s.run tr).data k = some e0 ∨
      Dict.find? (s.run tr).data k = none) ∧
    (Dict.keys (s.run tr).data).Nodup ∧ (s.run tr).ttl = s.ttl := by
  induction tr generalizing s with
  | nil => exact ⟨hk, hnd, rfl⟩
  | cons hd tl ih =>
    obtain ⟨k', t'⟩ := hd
    have hstep := step_weakF s k e0 k' t' hnd
      (htr (k', t') (List.mem_cons_self _ _)) hk
    have hnd' := add_if_new_nodupF s k' t' hnd
    have httl := add_if_new_ttlF s k' t'
    have hrec := ih (s.add_if_new k' t').2 hnd'
      (fun p hp => htr p (List.mem_cons_of_mem _ hp)) hstep
    rw [show ExpSetF.run s ((k', t') :: tl) =
      ExpSetF.run (s.add_if_new k' t').2 tl from rfl]
    exact ⟨hrec.1, hrec.2.1, hrec.2.2.trans httl⟩

/-- An expired (or absent) entry makes the next same-key call fresh again. -/
theorem add_if_new_expiredF (s : ExpSetF) (k : String) (e0 t1 : ℚ)
    (hnd : (Dict.keys s.data).Nodup)
    (hk : Dict.find? s.data k = some e0 ∨ Dict.find? s.data k = none)
    (hexp : e0 ≤ t1) : (s.add_if_new k t1).1 = true := by
  have hp : Dict.find? (s.evict t1).data k = none := by
    rw [evict_find? s t1 k hnd]
    rcases hk with h | h
    · rw [h]
      simp [hexp]
    · rw [h]
  simp only [add_if_new]
  rw [hp]

end ExpSetF

/-- C8.  For both `ExpiringSet` implementations (`Dijkstra/protocols.py`
storing insertion timestamps, `Flooding/utils.py` storing expiry times):
`add_if_new(k)` is true on first sight and records the key; any repeat call
on `k` within the TTL window of the first — with arbitrary interleaved calls
on any keys, none of which disturb `k`'s entry — returns false; once the
entry's window has passed, a new call on `k` (after arbitrary other-key
traffic) returns true again. -/
theorem expiring_set_spec :
    (∀ (s : ExpSetD) (k : String) (now : ℚ),
      Dict.find? s.data k = none →
      (s.add_if_new k now).1 = true ∧
      Dict.find? (s.add_if_new k now).2.data k = some now) ∧
    (∀ (s : ExpSetD) (k : String) (t0 : ℚ) (tr : List (String × ℚ)) (t1 : ℚ),
      (Dict.keys s.data).Nodup → Dict.find? s.data k = some t0 →
      (∀ p ∈ tr, p.2 - t0 ≤ (s.ttl : ℚ)) → t1 - t0 ≤ (s.ttl : ℚ) →
      (((s.run tr).add_if_new k t1).1 = false)) ∧
    (∀ (s : ExpSetD) (k : String) (t0 : ℚ) (tr : List (String × ℚ)) (t1 : ℚ),
      (Dict.keys s.data).Nodup → Dict.find? s.data k = some t0 →
      (∀ p ∈ tr, p.1 ≠ k) → t1 - t0 > (s.ttl : ℚ) →
      (((s.run tr).add_if_new k t1).1 = true)) ∧
    (∀ (s : ExpSetF) (k : String) (now : ℚ),
      Dict.find? s.data k = none →
      (s.add_if_new k now).1 = true ∧
      Dict.find? (s.add_if_new k now).2.data k = some (now + s.ttl)) ∧
    (∀ (s : ExpSetF) (k : String) (e0 : ℚ) (tr : List (String × ℚ)) (t1 : ℚ),
      (Dict.keys s.data).Nodup → Dict.find? s.data k = some e0 →
      (∀ p ∈ tr, p.2 < e0) → t1 < e0 →
      (((s.run tr).add_if_new k t1).1 = false)) ∧
    (∀ (s : ExpSetF) (k : String) (e0 : ℚ) (tr : List (String × ℚ)) (t1 : ℚ),
      (Dict.keys s.data).Nodup → Dict.find? s.data k = some e0 →
      (∀ p ∈ tr, p.1 ≠ k) → e0 ≤ t1 →
      (((s.run tr).add_if_new k t1).1 = true)) := by
  refine ⟨?_, ?_, ?_, ?_, ?_, ?_⟩
  · intro s k now h
    exact ExpSetD.add_if_new_fresh s k now h
  · intro s k t0 tr t1 hnd hk htr h1
    obtain ⟨hfind, hnd', httl⟩ := ExpSetD.run_persist tr s k t0 hnd hk htr
    have := (ExpSetD.step_persist (s.run tr) k t0 k t1 hnd' hfind
      (by rw [httl]; exact h1)).2 rfl
    exact this
  · intro s k t0 tr t1 hnd hk htr h1
    obtain ⟨hfind, hnd', httl⟩ := ExpSetD.run_weak tr s k t0 hnd htr (Or.inl hk)
    exact ExpSetD.add_if_new_expired (s.run tr) k t0 t1 hnd' hfind
      (by rw [httl]; exact h1)
  · intro s k now h
    exact ExpSetF.add_if_new_freshF s k now h
  · intro s k e0 tr t1 hnd hk htr h1
    obtain ⟨hfind, hnd', httl⟩ := ExpSetF.run_persistF tr s k e0 hnd hk htr
    exact (ExpSetF.step_persistF (s.run tr) k e0 k t1 hnd' hfind h1).2 rfl
  · intro s k e0 tr t1 hnd hk htr h1
    obtain ⟨hfind, hnd', httl⟩ := ExpSetF.run_weakF tr s k e0 hnd htr (Or.inl hk)
    exact ExpSetF.add_if_new_expiredF (s.run tr) k e0 t1 hnd' hfind h1

/-- Witness for C8: on a concrete 60-second filter, a repeat of "a" 50 s
after first sight (with interleaved traffic on "b" and "a") is a duplicate. -/
theorem expiring_set_spec_witness :
    (((ExpSetD.mk 60 [("a", 0)]).run [("b", 10), ("a", 20)]).add_if_new
      "a" 50).1 = false := by
  refine expiring_set_spec.2.1 (ExpSetD.mk 60 [("a", 0)]) "a" 0
    [("b", 10), ("a", 20)] 50 (by decide) (by decide) ?_ (by norm_num)
  intro p hp
  rcases List.mem_cons.mp hp with h | h
  · subst h
    norm_num
  · rcases List.mem_cons.mp h with h | h
    · subst h
      norm_num
    · simp at h

/-! ## Heap-pop lemmas (claims C2/C3/C9) -/

theorem entryLe_fst_le {a b : PQE} (h : entryLe a b = true) : a.1 ≤ b.1 := by
  simp only [entryLe, Bool.or_eq_true, Bool.and_eq_true, decide_eq_true_eq]
  at h
  rcases h with h | ⟨h, -⟩
  · exact le_of_lt h
  · exact le_of_eq h

theorem entryLe_fst_ge {a b : PQE} (h : entryLe a b = false) : b.1 ≤ a.1 := by
  simp only [entryLe, Bool.or_eq_false_iff, Bool.and_eq_false_iff,
    decide_eq_false_iff_not] at h
  rcases h with ⟨h1, -⟩
  exact le_of_not_lt h1

theorem popMin_eq_none {l : List PQE} : popMin l = none ↔ l = [] := by
  cases l with
  | nil => simp [popMin]
  | cons e es =>
    simp only [popMin]
    cases popMin es with
    | none => simp
    | some p =>
      obtain ⟨m, rest⟩ := p
      by_cases h : entryLe e m <;> simp [h]

theorem popMin_perm {l : List PQE} {e : PQE} {rest : List PQE}
    (h : popMin l = some (e, rest)) : (e :: rest).Perm l := by
  induction l generalizing e rest with
  | nil => simp [popMin] at h
  | cons a as ih =>
    simp only [popMin] at h
    cases hpm : popMin as with
    | none =>
      rw [hpm] at h
      have : as = [] := popMin_eq_none.mp hpm
      subst this
      simp only [Option.some.injEq, Prod.mk.injEq] at h
      rw [← h.1, ← h.2]
    | some p =>
      obtain ⟨m, mrest⟩ := p
      rw [hpm] at h
      have h2 : (if entryLe a m = true then some (a, as)
          else some (m, a :: mrest)) = some (e, rest) := h
      by_cases hle : entryLe a m
      · rw [if_pos hle] at h2
        simp only [Option.some.injEq, Prod.mk.injEq] at h2
        rw [← h2.1, ← h2.2]
      · rw [if_neg hle] at h2
        simp only [Option.some.injEq, Prod.mk.injEq] at h2
        obtain ⟨he, hr⟩ := h2
        subst he
        subst hr
        exact (List.Perm.swap a m mrest).trans ((ih hpm).cons a)

theorem popMin_min {l : List PQE} {e : PQE} {rest : List PQE}
    (h : popMin l = some (e, rest)) : ∀ x ∈ l, e.1 ≤ x.1 := by
  induction l generalizing e rest with
  | nil => simp [popMin] at h
  | cons a as ih =>
    simp only [popMin] at h
    cases hpm : popMin as with
    | none =>
      rw [hpm] at h
      have : as = [] := popMin_eq_none.mp hpm
      subst this
      simp only [Option.some.injEq, Prod.mk.injEq] at h
      intro x hx
      rcases List.mem_cons.mp hx with hx | hx
      · rw [← h.1, hx]
      · simp at hx
    | some p =>
      obtain ⟨m, mrest⟩ := p
      rw [hpm] at h
      have h2 : (if entryLe a m = true then some (a, as)
          else some (m, a :: mrest)) = some (e, rest) := h
      intro x hx
      by_cases hle : entryLe a m
      · rw [if_pos hle] at h2
        simp only [Option.some.injEq, Prod.mk.injEq] at h2
        rw [← h2.1]
        rcases List.mem_cons.mp hx with hx | hx
        · rw [hx]
        · exact le_trans (entryLe_fst_le hle) (ih hpm x hx)
      · rw [if_neg hle] at h2
        simp only [Option.some.injEq, Prod.mk.injEq] at h2
        rw [← h2.1]
        rcases List.mem_cons.mp hx with hx | hx
        · rw [hx]
          exact entryLe_fst_ge (by simpa using hle)
        · exact ih hpm x hx

/-! ## Path lemmas -/

theorem edgeWeight_mem {g : Graph} {u v : String} {w : ℚ}
    (h : edgeWeight g u v = some w) :
    ∃ adj, g.find? u = some adj ∧ (v, w) ∈ adj := by
  unfold edgeWeight at h
  cases hadj : g.find? u with
  | none => rw [hadj] at h; simp at h
  | some adj =>
    rw [hadj] at h
    exact ⟨adj, rfl, Dict.mem_of_find?_eq_some h⟩

theorem edgeWeight_of_mem {g : Graph} {u v : String} {w : ℚ}
    {adj : Dict ℚ} (hwf : Graph.WF g) (hadj : g.find? u = some adj)
    (hmem : (v, w) ∈ adj) : edgeWeight g u v = some w := by
  unfold edgeWeight
  rw [hadj]
  exact Dict.find?_eq_some_of_mem hmem (hwf u adj hadj)

theorem PathW.nonneg {g : Graph} {s v : String} {c : ℚ}
    (hn : Graph.Nonneg g) (h : PathW g s v c) : 0 ≤ c := by
  induction h with
  | refl => exact le_refl 0
  | snoc hp he ih =>
    obtain ⟨adj, hadj, hmem⟩ := edgeWeight_mem he
    have := hn _ adj hadj _ hmem
    linarith

theorem PathW.endpoint_isSome {g : Graph} {s v : String} {c : ℚ}
    (hs : (g.find? s).isSome) (hc : Graph.Closed g) (h : PathW g s v c) :
    (g.find? v).isSome := by
  induction h with
  | refl => exact hs
  | snoc hp he ih =>
    obtain ⟨adj, hadj, hmem⟩ := edgeWeight_mem he
    exact hc _ adj hadj _ hmem

/-! ## Counting lemma for the loop's fuel -/

theorem filter_strengthen_length_lt {l : List String} {p q : String → Bool}
    {u : String} (hu : u ∈ l) (hp : p u = true) (hq : q u = false)
    (himp : ∀ x, q x = true → p x = true) :
    (l.filter q).length < (l.filter p).length := by
  induction l with
  | nil => simp at hu
  | cons a as ih =>
    rcases List.mem_cons.mp hu with rfl | hu
    · rw [List.filter_cons, List.filter_cons, hp, hq]
      simp only [if_true]
      have : (as.filter q).length ≤ (as.filter p).length := by
        have hsub : ∀ x ∈ as.filter q, x ∈ as ∧ q x = true := by
          intro x hx
          exact ⟨List.mem_of_mem_filter hx, List.of_mem_filter hx⟩
        calc (as.filter q).length
            ≤ ((as.filter q).filter p).length := by
              apply le_of_eq
              symm
              congr 1
              apply List.filter_eq_self.mpr
              intro x hx
              exact himp x (List.of_mem_filter hx)
          _ ≤ (as.filter p).length := by
              apply List.Sublist.length_le
              exact List.Sublist.filter p (List.filter_sublist as)
      simpa using Nat.lt_succ_of_le this
    · rw [List.filter_cons, List.filter_cons]
      by_cases hqa : q a = true
      · rw [hqa, himp a hqa]
        simpa using ih hu
      · rw [Bool.not_eq_true] at hqa
        rw [hqa]
        by_cases hpa : p a = true
        · rw [hpa]
          simp only [if_true, if_false]
          exact Nat.lt_succ_of_lt (ih hu)
        · rw [Bool.not_eq_true] at hpa
          rw [hpa]
          simpa using ih hu

theorem adj_length_le_totalAdj {g : Graph} {u : String} {adj : Dict ℚ}
    (h : g.find? u = some adj) : adj.length ≤ totalAdj g := by
  have hmem : (u, adj) ∈ g := Dict.mem_of_find?_eq_some h
  unfold totalAdj
  calc adj.length = (fun p : String × Dict ℚ => p.2.length) (u, adj) := rfl
    _ ≤ ((g.map (fun p => p.2.length))).sum := by
      apply List.le_sum_of_mem
      exact List.mem_map.mpr ⟨(u, adj), hmem, rfl⟩

/-! ## The relaxation loop preserves the invariant -/

theorem relaxAll_inv (g : Graph) (s : String) (hwf : Graph.WF g)
    (hclosed : Graph.Closed g) (hnonneg : Graph.Nonneg g)
    (u : String) (d : ℚ) (visited : List String) (adj : Dict ℚ)
    (hadj : g.find? u = some adj) :
    ∀ (rem : List (String × ℚ)) (dist : Dict (WithTop ℚ))
      (prev : Dict (Option String)) (pq : List PQE),
      (∀ p ∈ rem, p ∈ adj) →
      (∀ p ∈ adj, RelaxedAt dist u p ∨ p ∈ rem) →
      dist.find? u = some ((d : ℚ) : WithTop ℚ) →
      (∀ x ∈ u :: visited,
        ∃ dx, dist.find? x = some dx ∧ dx ≤ ((d : ℚ) : WithTop ℚ)) →
      DijInvCore g s dist prev pq (u :: visited) →
      RelaxedAll g dist visited →
      ∃ dist' prev' pq',
        relaxAll d u rem dist prev pq = .ok (dist', prev', pq') ∧
        DijInvCore g s dist' prev' pq' (u :: visited) ∧
        RelaxedAll g dist' (u :: visited) ∧
        pq'.length ≤ pq.length + rem.length := by
  intro rem
  induction rem with
  | nil =>
    intro dist prev pq hsub hproc hd hvb hcore hrel
    refine ⟨dist, prev, pq, rfl, hcore, ?_, by simp⟩
    intro x hx adjx hadjx p hp
    rcases List.mem_cons.mp hx with rfl | hx
    · rw [hadjx] at hadj
      obtain rfl : adjx = adj := by
        simpa using hadj
      rcases hproc p hp with hr | hmem
      · exact hr
      · simp at hmem
    · exact hrel x hx adjx hadjx p hp
  | cons pe rem ih =>
    intro dist prev pq hsub hproc hd hvb hcore hrel
    obtain ⟨v, w⟩ := pe
    have hvw_adj : (v, w) ∈ adj := hsub (v, w) (List.mem_cons_self _ _)
    have hvdom : (g.find? v).isSome := hclosed u adj hadj (v, w) hvw_adj
    obtain ⟨dv, hdv⟩ := Option.isSome_iff_exists.mp
      ((hcore.domDist v).mpr hvdom)
    have hw0 : 0 ≤ w := hnonneg u adj hadj (v, w) hvw_adj
    have hedge : edgeWeight g u v = some w := edgeWeight_of_mem hwf hadj hvw_adj
    simp only [relaxAll, hdv]
    by_cases hlt : (((d + w : ℚ)) : WithTop ℚ) < dv
    · rw [if_pos hlt]
      have hdle : ((d : ℚ) : WithTop ℚ) ≤ (((d + w : ℚ)) : WithTop ℚ) := by
        rw [WithTop.coe_le_coe]
        linarith
      have hvnot : v ∉ u :: visited := by
        intro hv
        obtain ⟨dx, hdx, hdxle⟩ := hvb v hv
        rw [hdx] at hdv
        obtain rfl : dx = dv := by simpa using hdv
        exact absurd hlt (not_lt.mpr (le_trans hdxle hdle))
      have hvu : v ≠ u := fun he => hvnot (he ▸ List.mem_cons_self _ _)
      have hfs : Dict.find? (dist.insert v (((d + w : ℚ)) : WithTop ℚ)) v =
          some (((d + w : ℚ)) : WithTop ℚ) := Dict.find?_insert_self dist v _
      have hfn : ∀ y, y ≠ v →
          Dict.find? (dist.insert v (((d + w : ℚ)) : WithTop ℚ)) y =
            dist.find? y := fun y hy =>
        Dict.find?_insert_ne dist v y _ (Ne.symm hy)
      have hps : Dict.find? (prev.insert v (some u)) v = some (some u) :=
        Dict.find?_insert_self prev v _
      have hpn : ∀ y, y ≠ v →
          Dict.find? (prev.insert v (some u)) y = prev.find? y :=
        fun y hy => Dict.find?_insert_ne prev v y _ (Ne.symm hy)
      have hstable : ∀ x ∈ u :: visited,
          Dict.find? (dist.insert v (((d + w : ℚ)) : WithTop ℚ)) x =
            dist.find? x := by
        intro x hx
        exact hfn x (fun he => hvnot (he ▸ hx))
      have hvs : v ≠ s := by
        intro he
        subst he
        rw [hcore.distS] at hdv
        obtain rfl : ((0 : ℚ) : WithTop ℚ) = dv := by simpa using hdv
        rw [WithTop.coe_lt_coe] at hlt
        have hd0 : 0 ≤ d := PathW.nonneg hnonneg (hcore.distSound u d hd)
        linarith
      have hrelpersist : ∀ x p', x ≠ v → RelaxedAt dist x p' →
          RelaxedAt (dist.insert v (((d + w : ℚ)) : WithTop ℚ)) x p' := by
        rintro x p' hx ⟨du', dv', h1, h2, h3⟩
        by_cases hpv : p'.1 = v
        · rw [hpv, hdv] at h2
          obtain rfl : dv = dv' := by simpa using h2
          refine ⟨du', (((d + w : ℚ)) : WithTop ℚ),
            by rw [hfn x hx]; exact h1, by rw [hpv]; exact hfs, ?_⟩
          exact le_trans (le_of_lt hlt) h3
        · exact ⟨du', dv', by rw [hfn x hx]; exact h1,
            by rw [hfn p'.1 hpv]; exact h2, h3⟩
      have hnewpath : PathW g s v (d + w) :=
        PathW.snoc (hcore.distSound u d hd) hedge
      have hd' : Dict.find? (dist.insert v (((d + w : ℚ)) : WithTop ℚ)) u =
          some ((d : ℚ) : WithTop ℚ) := by
        rw [hfn u (Ne.symm hvu)]
        exact hd
      have hproc' : ∀ p ∈ adj,
          RelaxedAt (dist.insert v (((d + w : ℚ)) : WithTop ℚ)) u p ∨
            p ∈ rem := by
        intro p hp
        rcases hproc p hp with hr | hmem
        · exact Or.inl (hrelpersist u p (Ne.symm hvu) hr)
        · rcases List.mem_cons.mp hmem with rfl | hmem
          · refine Or.inl ⟨((d : ℚ) : WithTop ℚ),
              (((d + w : ℚ)) : WithTop ℚ), hd', hfs, ?_⟩
            rw [← WithTop.coe_add]
          · exact Or.inr hmem
      have hvb' : ∀ x ∈ u :: visited,
          ∃ dx, Dict.find? (dist.insert v (((d + w : ℚ)) : WithTop ℚ)) x =
            some dx ∧ dx ≤ ((d : ℚ) : WithTop ℚ) := by
        intro x hx
        obtain ⟨dx, hdx, hdxle⟩ := hvb x hx
        exact ⟨dx, by rw [hstable x hx]; exact hdx, hdxle⟩
      have hrel' : RelaxedAll g
          (dist.insert v (((d + w : ℚ)) : WithTop ℚ)) visited := by
        intro x hx adjx hadjx p hp
        have hxv : x ≠ v := fun he =>
          hvnot (he ▸ List.mem_cons_of_mem _ hx)
        exact hrelpersist x p hxv (hrel x hx adjx hadjx p hp)
      have hcore' : DijInvCore g s
          (dist.insert v (((d + w : ℚ)) : WithTop ℚ))
          (prev.insert v (some u)) (pq ++ [(d + w, v)]) (u :: visited) := by
        obtain ⟨hdomD, hdomP, hpqDom, hvisDom, hvisNd, hsound, hpqS, hpqDL,
          hpqVL, hpend, hdS, hpS, hpT, hpF, hpL⟩ := hcore
        refine ⟨?_, ?_, ?_, hvisDom, hvisNd, ?_, ?_, ?_, ?_, ?_, ?_, ?_, ?_,
          ?_, ?_⟩
        · intro y
          rw [Dict.isSome_find?_insert dist v y _ (by rw [hdv]; rfl)]
          exact hdomD y
        · intro y
          rw [Dict.isSome_find?_insert prev v y _ ((hdomP v).mpr hvdom)]
          exact hdomP y
        · intro e he
          rcases List.mem_append.mp he with he | he
          · exact hpqDom e he
          · simp only [List.mem_singleton] at he
            subst he
            exact hvdom
        · intro y c hy
          by_cases hyv : y = v
          · subst hyv
            rw [hfs] at hy
            obtain rfl : c = d + w := by
              have := Option.some.inj hy
              exact_mod_cast this.symm
            exact hnewpath
          · rw [hfn y hyv] at hy
            exact hsound y c hy
        · intro e he
          rcases List.mem_append.mp he with he | he
          · exact hpqS e he
          · simp only [List.mem_singleton] at he
            subst he
            exact hnewpath
        · intro e he
          rcases List.mem_append.mp he with he | he
          · obtain ⟨dve, h1, h2⟩ := hpqDL e he
            by_cases hev : e.2 = v
            · rw [hev, hdv] at h1
              obtain rfl : dv = dve := by simpa using h1
              exact ⟨(((d + w : ℚ)) : WithTop ℚ), by rw [hev]; exact hfs,
                le_trans (le_of_lt hlt) h2⟩
            · exact ⟨dve, by rw [hfn e.2 hev]; exact h1, h2⟩
          · simp only [List.mem_singleton] at he
            subst he
            exact ⟨(((d + w : ℚ)) : WithTop ℚ), hfs, le_refl _⟩
        · intro e he x hx
          rcases List.mem_append.mp he with he | he
          · obtain ⟨dx, h1, h2⟩ := hpqVL e he x hx
            exact ⟨dx, by rw [hstable x hx]; exact h1, h2⟩
          · simp only [List.mem_singleton] at he
            subst he
            obtain ⟨dx, h1, h2⟩ := hvb x hx
            exact ⟨dx, by rw [hstable x hx]; exact h1, le_trans h2 hdle⟩
        · intro x hxnot c hx
          by_cases hxv : x = v
          · subst hxv
            rw [hfs] at hx
            obtain rfl : c = d + w := by
              have := Option.some.inj hx
              exact_mod_cast this.symm
            exact List.mem_append.mpr (Or.inr (List.mem_singleton.mpr rfl))
          · rw [hfn x hxv] at hx
            exact List.mem_append.mpr (Or.inl (hpend x hxnot c hx))
        · rw [hfn s (Ne.symm hvs)]
          exact hdS
        · rw [hpn s (Ne.symm hvs)]
          exact hpS
        · intro y hy
          by_cases hyv : y = v
          · subst hyv
            rw [hfs] at hy
            exact absurd (Option.some.inj hy) (by simp)
          · rw [hfn y hyv] at hy
            rw [hpn y hyv]
            exact hpT y hy
        · intro y c hys hy
          by_cases hyv : y = v
          · subst hyv
            exact ⟨u, hps⟩
          · rw [hfn y hyv] at hy
            obtain ⟨uy, huy⟩ := hpF y c hys hy
            exact ⟨uy, by rw [hpn y hyv]; exact huy⟩
        · intro x y hxy
          by_cases hxv : x = v
          · subst hxv
            rw [hps] at hxy
            obtain rfl : u = y := by simpa using hxy
            refine ⟨w, d, d + w, hedge, hd', hfs, rfl,
              List.mem_cons_self _ _, ?_⟩
            intro hv
            exact absurd hv hvnot
          · rw [hpn x hxv] at hxy
            obtain ⟨w', du', dv', h1, h2, h3, h4, h5, h6⟩ := hpL x y hxy
            exact ⟨w', du', dv', h1, by rw [hstable y h5]; exact h2,
              by rw [hfn x hxv]; exact h3, h4, h5, h6⟩
      obtain ⟨dist', prev', pq', h1, h2, h3, h4⟩ :=
        ih (dist.insert v (((d + w : ℚ)) : WithTop ℚ))
          (prev.insert v (some u)) (pq ++ [(d + w, v)])
          (fun p hp => hsub p (List.mem_cons_of_mem _ hp))
          hproc' hd' hvb' hcore' hrel'
      refine ⟨dist', prev', pq', h1, h2, h3, ?_⟩
      simp only [List.length_append, List.length_singleton] at h4
      simp only [List.length_cons]
      omega
    · rw [if_neg hlt]
      have hnle : dv ≤ (((d + w : ℚ)) : WithTop ℚ) := not_lt.mp hlt
      have hproc' : ∀ p ∈ adj, RelaxedAt dist u p ∨ p ∈ rem := by
        intro p hp
        rcases hproc p hp with hr | hmem
        · exact Or.inl hr
        · rcases List.mem_cons.mp hmem with rfl | hmem
          · refine Or.inl ⟨((d : ℚ) : WithTop ℚ), dv, hd, hdv, ?_⟩
            rw [← WithTop.coe_add]
            exact hnle
          · exact Or.inr hmem
      obtain ⟨dist', prev', pq', h1, h2, h3, h4⟩ :=
        ih dist prev pq (fun p hp => hsub p (List.mem_cons_of_mem _ hp))
          hproc' hd hvb hcore hrel
      refine ⟨dist', prev', pq', h1, h2, h3, ?_⟩
      simp only [List.length_cons]
      omega

/-! ## The main loop -/

theorem indexOf_cons_ne_nat (a b : String) (l : List String) (h : a ≠ b) :
    (b :: l).indexOf a = l.indexOf a + 1 := by
  simp [List.indexOf_cons, Bool.cond_eq_ite, beq_iff_eq, Ne.symm h]

theorem visited_length_le {g : Graph} {visited : List String}
    (hnd : visited.Nodup) (hdom : ∀ x ∈ visited, (Dict.find? g x).isSome) :
    visited.length ≤ g.length := by
  have hsub : visited ⊆ Dict.keys g := fun x hx =>
    (Dict.isSome_find?_iff_mem_keys g x).mp (hdom x hx)
  have hle := List.Subperm.length_le (List.subperm_of_subset hnd hsub)
  simpa [Dict.keys] using hle

theorem dijkstraLoop_nil (g : Graph) (fuel : Nat) (dist : Dict (WithTop ℚ))
    (prev : Dict (Option String)) (visited : List String) :
    dijkstraLoop g fuel dist prev [] visited = .ok (dist, prev) := by
  cases fuel <;> rfl

theorem dijkstraLoop_ok (g : Graph) (s : String) (hwf : Graph.WF g)
    (hclosed : Graph.Closed g) (hnonneg : Graph.Nonneg g) :
    ∀ (fuel : Nat) (dist : Dict (WithTop ℚ)) (prev : Dict (Option String))
      (pq : List PQE) (visited : List String),
      DijInvCore g s dist prev pq visited →
      RelaxedAll g dist visited →
      pq.length + (g.length - visited.length) * (1 + totalAdj g) ≤ fuel →
      ∃ dist' prev' visited',
        dijkstraLoop g fuel dist prev pq visited = .ok (dist', prev') ∧
        DijInvCore g s dist' prev' [] visited' ∧
        RelaxedAll g dist' visited' := by
  intro fuel
  induction fuel with
  | zero =>
    intro dist prev pq visited hcore hrel hfuel
    have hpq : pq = [] := by
      refine List.length_eq_zero.mp ?_
      omega
    subst hpq
    exact ⟨dist, prev, visited, dijkstraLoop_nil g 0 dist prev visited,
      hcore, hrel⟩
  | succ n ih =>
    intro dist prev pq visited hcore hrel hfuel
    cases pq with
    | nil =>
      exact ⟨dist, prev, visited, dijkstraLoop_nil g (n + 1) dist prev visited,
        hcore, hrel⟩
    | cons e es =>
      cases hpop : popMin (e :: es) with
      | none => exact absurd (popMin_eq_none.mp hpop) (by simp)
      | some p =>
        obtain ⟨⟨d, u⟩, rest⟩ := p
        have hperm := popMin_perm hpop
        have hlen : es.length = rest.length := by
          have := hperm.length_eq
          simp only [List.length_cons] at this
          omega
        have hdu_mem : (d, u) ∈ e :: es := hperm.subset (List.mem_cons_self _ _)
        have hrest_mem : ∀ x ∈ rest, x ∈ e :: es := fun x hx =>
          hperm.subset (List.mem_cons_of_mem _ hx)
        simp only [dijkstraLoop, hpop]
        by_cases hu : u ∈ visited
        · rw [if_pos hu]
          have hcore' : DijInvCore g s dist prev rest visited := by
            obtain ⟨hdomD, hdomP, hpqDom, hvisDom, hvisNd, hsound, hpqS,
              hpqDL, hpqVL, hpend, hdS, hpS, hpT, hpF, hpL⟩ := hcore
            refine ⟨hdomD, hdomP, fun x hx => hpqDom x (hrest_mem x hx),
              hvisDom, hvisNd, hsound, fun x hx => hpqS x (hrest_mem x hx),
              fun x hx => hpqDL x (hrest_mem x hx),
              fun x hx => hpqVL x (hrest_mem x hx), ?_, hdS, hpS, hpT, hpF,
              hpL⟩
            intro x hx c hdx
            have hin : (c, x) ∈ (d, u) :: rest :=
              hperm.mem_iff.mpr (hpend x hx c hdx)
            rcases List.mem_cons.mp hin with heq | hin
            · obtain ⟨-, rfl⟩ := Prod.mk.injEq .. ▸ heq
              exact absurd hu hx
            · exact hin
          refine ih dist prev rest visited hcore' hrel ?_
          simp only [List.length_cons] at hfuel
          omega
        · rw [if_neg hu]
          have hus : (Dict.find? g u).isSome := hcore.pqDom (d, u) hdu_mem
          obtain ⟨adj, hadj⟩ := Option.isSome_iff_exists.mp hus
          simp only [hadj]
          obtain ⟨dv, hdv, hdvle⟩ := hcore.pqDistLe (d, u) hdu_mem
          obtain ⟨c, rfl, hcle⟩ := WithTop.le_coe_iff.mp hdvle
          have hin : (c, u) ∈ e :: es := hcore.pending u hu c hdv
          have hdc : d ≤ c := popMin_min hpop (c, u) hin
          obtain rfl : d = c := le_antisymm hdc hcle
          have hvb : ∀ x ∈ u :: visited,
              ∃ dx, dist.find? x = some dx ∧ dx ≤ ((d : ℚ) : WithTop ℚ) := by
            intro x hx
            rcases List.mem_cons.mp hx with rfl | hx
            · exact ⟨_, hdv, le_refl _⟩
            · exact hcore.pqVisLe (d, u) hdu_mem x hx
          have hvisDom' : ∀ x ∈ u :: visited, (Dict.find? g x).isSome := by
            intro x hx
            rcases List.mem_cons.mp hx with rfl | hx
            · exact hus
            · exact hcore.visDom x hx
          have hcore2 : DijInvCore g s dist prev rest (u :: visited) := by
            obtain ⟨hdomD, hdomP, hpqDom, hvisDom, hvisNd, hsound, hpqS,
              hpqDL, hpqVL, hpend, hdS, hpS, hpT, hpF, hpL⟩ := hcore
            refine ⟨hdomD, hdomP, fun x hx => hpqDom x (hrest_mem x hx),
              hvisDom', List.nodup_cons.mpr ⟨hu, hvisNd⟩, hsound,
              fun x hx => hpqS x (hrest_mem x hx),
              fun x hx => hpqDL x (hrest_mem x hx), ?_, ?_, hdS, hpS, hpT,
              hpF, ?_⟩
            · intro x hx y hy
              rcases List.mem_cons.mp hy with rfl | hy
              · refine ⟨_, hdv, ?_⟩
                exact_mod_cast popMin_min hpop x (hrest_mem x hx)
              · exact hpqVL x (hrest_mem x hx) y hy
            · intro x hx cx hdx
              have hx' : x ∉ visited := fun h => hx (List.mem_cons_of_mem _ h)
              have hxu : x ≠ u := fun h => hx (h ▸ List.mem_cons_self _ _)
              have hin2 : (cx, x) ∈ (d, u) :: rest :=
                hperm.mem_iff.mpr (hpend x hx' cx hdx)
              rcases List.mem_cons.mp hin2 with heq | hin2
              · exact absurd (congrArg Prod.snd heq) hxu
              · exact hin2
            · intro v u0 hvu0
              obtain ⟨w, du, dvv, h1, h2, h3, h4, h5, h6⟩ := hpL v u0 hvu0
              have hu0u : u0 ≠ u := fun h => hu (h ▸ h5)
              refine ⟨w, du, dvv, h1, h2, h3, h4, List.mem_cons_of_mem _ h5,
                ?_⟩
              intro hv
              rw [indexOf_cons_ne_nat u0 u visited hu0u]
              rcases List.mem_cons.mp hv with rfl | hv
              · rw [List.indexOf_cons_self]
                omega
              · have hvu : v ≠ u := fun h => hu (h ▸ hv)
                rw [indexOf_cons_ne_nat v u visited hvu]
                have := h6 hv
                omega
          obtain ⟨dist', prev', pq', hrx, hcore3, hrel3, hplen⟩ :=
            relaxAll_inv g s hwf hclosed hnonneg u d visited adj hadj adj
              dist prev rest (fun p hp => hp) (fun p hp => Or.inr hp) hdv hvb
              hcore2 hrel
          simp only [hrx]
          refine ih dist' prev' pq' (u :: visited) hcore3 hrel3 ?_
          have hadjle : adj.length ≤ totalAdj g := adj_length_le_totalAdj hadj
          have hvl : visited.length + 1 ≤ g.length := by
            have := visited_length_le
              (List.nodup_cons.mpr ⟨hu, hcore.visNodup⟩) hvisDom'
            simpa using this
          obtain ⟨U1, hU1⟩ : ∃ U1, g.length - visited.length = U1 + 1 :=
            ⟨g.length - visited.length - 1, by omega⟩
          have hU2 : g.length - (u :: visited).length = U1 := by
            simp only [List.length_cons]
            omega
          rw [hU2]
          rw [hU1] at hfuel
          have hmul : (U1 + 1) * (1 + totalAdj g) =
              U1 * (1 + totalAdj g) + (1 + totalAdj g) := by ring
          rw [hmul] at hfuel
          simp only [List.length_cons] at hfuel
          omega

/-! ## From the drained invariant to the solver's guarantees -/

theorem drained_facts (g : Graph) (s : String)
    (dist : Dict (WithTop ℚ)) (prev : Dict (Option String))
    (visited : List String)
    (hcore : DijInvCore g s dist prev [] visited)
    (hrel : RelaxedAll g dist visited) :
    DijFacts g s dist prev := by
  have hfin_vis : ∀ x (c : ℚ),
      dist.find? x = some ((c : ℚ) : WithTop ℚ) → x ∈ visited := by
    intro x c hx
    by_contra hxv
    simpa using hcore.pending x hxv c hx
  have hcomplete : ∀ v (c' : ℚ), PathW g s v c' →
      ∃ c : ℚ, dist.find? v = some ((c : ℚ) : WithTop ℚ) ∧ c ≤ c' := by
    intro v c' hp
    induction hp with
    | refl => exact ⟨0, hcore.distS, le_refl 0⟩
    | snoc hp he ih =>
      rename_i u v w c
      obtain ⟨cu, hcu, hcule⟩ := ih
      obtain ⟨adj, hadj, hmem⟩ := edgeWeight_mem he
      have huv : u ∈ visited := hfin_vis u cu hcu
      obtain ⟨du, dv, h1, h2, h3⟩ := hrel u huv adj hadj _ hmem
      rw [hcu] at h1
      obtain rfl : du = ((cu : ℚ) : WithTop ℚ) := by simpa using h1.symm
      rw [← WithTop.coe_add] at h3
      obtain ⟨cv, rfl, hcvle⟩ := WithTop.le_coe_iff.mp h3
      exact ⟨cv, h2, by linarith⟩
  refine ⟨hcore.domDist, hcore.domPrev, hcore.distS, hcore.prevS,
    hcore.distSound, hcomplete, ?_, hcore.prevTop, ?_, ?_⟩
  · intro v hv hnr
    have hsome : (dist.find? v).isSome := (hcore.domDist v).mpr hv
    obtain ⟨dv, hdv⟩ := Option.isSome_iff_exists.mp hsome
    by_cases hdt : dv = ⊤
    · rw [hdt] at hdv
      exact hdv
    · obtain ⟨cv, hc⟩ := WithTop.ne_top_iff_exists.mp hdt
      rw [← hc] at hdv
      exact absurd ⟨cv, hcore.distSound v cv hdv⟩ hnr
  · intro v c hvs hdvc
    obtain ⟨u, hu⟩ := hcore.prevFinite v c hvs hdvc
    obtain ⟨w, du, dvv, h1, h2, h3, h4, h5, h6⟩ := hcore.prevLink v u hu
    rw [hdvc] at h3
    have hc : dvv = c := by
      have := Option.some.inj h3
      exact_mod_cast this.symm
    exact ⟨u, w, du, hu, h1, h2, by rw [← h4, hc]⟩
  · refine ⟨fun x => visited.length - visited.indexOf x, ?_, ?_⟩
    · intro v
      show visited.length - visited.indexOf v ≤ g.length
      have := visited_length_le hcore.visNodup hcore.visDom
      omega
    · intro v u hvu
      obtain ⟨w, du, dvv, h1, h2, h3, h4, h5, h6⟩ := hcore.prevLink v u hvu
      have hv : v ∈ visited := hfin_vis v dvv h3
      have hidx := h6 hv
      have hul : visited.indexOf u < visited.length :=
        List.indexOf_lt_length.mpr h5
      show visited.length - visited.indexOf u < visited.length - visited.indexOf v
      omega

theorem shortest_paths_facts (g : Graph) (s : String) (hwf : Graph.WF g)
    (hclosed : Graph.Closed g) (hnonneg : Graph.Nonneg g)
    (hs : (Dict.find? g s).isSome) :
    ∃ dist prev, shortest_paths g s = .ok (dist, prev) ∧
      DijFacts g s dist prev := by
  have hsk : s ∈ Dict.keys g := (Dict.isSome_find?_iff_mem_keys g s).mp hs
  have hfd : ∀ v, v ≠ s →
      Dict.find? (Dict.insert (Dict.keys g |>.map
          (fun v => (v, (⊤ : WithTop ℚ)))) s ((0 : ℚ) : WithTop ℚ)) v =
        if v ∈ Dict.keys g then some (⊤ : WithTop ℚ) else none := by
    intro v hv
    rw [Dict.find?_insert_ne _ s v _ (Ne.symm hv), Dict.find?_map_const]
  have hfs : Dict.find? (Dict.insert (Dict.keys g |>.map
      (fun v => (v, (⊤ : WithTop ℚ)))) s ((0 : ℚ) : WithTop ℚ)) s =
        some ((0 : ℚ) : WithTop ℚ) := Dict.find?_insert_self _ s _
  have hfp : ∀ v, Dict.find? (Dict.keys g |>.map
      (fun v => (v, (none : Option String)))) v =
        if v ∈ Dict.keys g then some none else none := by
    intro v
    rw [Dict.find?_map_const]
  have hcore : DijInvCore g s
      (Dict.insert (Dict.keys g |>.map
        (fun v => (v, (⊤ : WithTop ℚ)))) s ((0 : ℚ) : WithTop ℚ))
      (Dict.keys g |>.map (fun v => (v, (none : Option String))))
      [(0, s)] [] := by
    refine ⟨?_, ?_, ?_, ?_, List.nodup_nil, ?_, ?_, ?_, ?_, ?_, hfs, ?_, ?_,
      ?_, ?_⟩
    · intro v
      by_cases hv : v = s
      · subst hv
        rw [hfs]
        simp [hs]
      · rw [hfd v hv, Dict.isSome_find?_iff_mem_keys]
        by_cases hm : v ∈ Dict.keys g <;> simp [hm]
    · intro v
      rw [hfp v, Dict.isSome_find?_iff_mem_keys]
      by_cases hm : v ∈ Dict.keys g <;> simp [hm]
    · intro e he
      simp only [List.mem_singleton] at he
      subst he
      exact hs
    · intro x hx
      simp at hx
    · intro v c hc
      by_cases hv : v = s
      · subst hv
        rw [hfs] at hc
        obtain rfl : c = 0 := by
          have := Option.some.inj hc
          exact_mod_cast this.symm
        exact PathW.refl
      · rw [hfd v hv] at hc
        by_cases hm : v ∈ Dict.keys g
        · rw [if_pos hm] at hc
          exact absurd (Option.some.inj hc).symm WithTop.coe_ne_top
        · rw [if_neg hm] at hc
          simp at hc
    · intro e he
      simp only [List.mem_singleton] at he
      subst he
      exact PathW.refl
    · intro e he
      simp only [List.mem_singleton] at he
      subst he
      exact ⟨((0 : ℚ) : WithTop ℚ), hfs, le_refl _⟩
    · intro e he x hx
      simp at hx
    · intro x hx c hc
      by_cases hv : x = s
      · subst hv
        rw [hfs] at hc
        obtain rfl : c = 0 := by
          have := Option.some.inj hc
          exact_mod_cast this.symm
        exact List.mem_singleton.mpr rfl
      · rw [hfd x hv] at hc
        by_cases hm : x ∈ Dict.keys g
        · rw [if_pos hm] at hc
          exact absurd (Option.some.inj hc).symm WithTop.coe_ne_top
        · rw [if_neg hm] at hc
          simp at hc
    · rw [hfp s, if_pos hsk]
    · intro v hv
      by_cases hvs : v = s
      · subst hvs
        rw [hfs] at hv
        exact absurd (Option.some.inj hv) (by simp)
      · rw [hfd v hvs] at hv
        by_cases hm : v ∈ Dict.keys g
        · rw [hfp v, if_pos hm]
        · rw [if_neg hm] at hv
          simp at hv
    · intro v c hvs hv
      rw [hfd v hvs] at hv
      by_cases hm : v ∈ Dict.keys g
      · rw [if_pos hm] at hv
        exact absurd (Option.some.inj hv).symm WithTop.coe_ne_top
      · rw [if_neg hm] at hv
        simp at hv
    · intro v u hv
      rw [hfp v] at hv
      by_cases hm : v ∈ Dict.keys g
      · rw [if_pos hm] at hv
        exact absurd (Option.some.inj hv) (by simp)
      · rw [if_neg hm] at hv
        simp at hv
  have hrel : RelaxedAll g
      (Dict.insert (Dict.keys g |>.map
        (fun v => (v, (⊤ : WithTop ℚ)))) s ((0 : ℚ) : WithTop ℚ))
      [] := fun u hu => absurd hu (List.not_mem_nil u)
  obtain ⟨dist', prev', visited', hloop, hcore', hrel'⟩ :=
    dijkstraLoop_ok g s hwf hclosed hnonneg (1 + g.length * (1 + totalAdj g))
      (Dict.insert (Dict.keys g |>.map
        (fun v => (v, (⊤ : WithTop ℚ)))) s ((0 : ℚ) : WithTop ℚ))
      (Dict.keys g |>.map (fun v => (v, (none : Option String))))
      [(0, s)] [] hcore hrel (by simp)
  exact ⟨dist', prev', by simp only [shortest_paths]; exact hloop,
    drained_facts g s dist' prev' visited' hcore' hrel'⟩

/-- C2: for every weighted directed graph with non-negative weights whose
edge endpoints are all keys and every source `s` that is a key,
`shortest_paths` returns `(dist, prev)` where `dist[s] = 0`, `dist[v]` is
the minimum path cost for every reachable `v`, `dist[v] = ∞` for every
unreachable key `v`, and for every reachable `v ≠ s` the entry `prev[v]`
is a predecessor of `v` on a shortest path: an in-neighbour `u` whose
distance is optimal and whose edge completes the optimal cost of `v`. -/
theorem shortest_paths_correct (g : Graph) (s : String) (hwf : Graph.WF g)
    (hclosed : Graph.Closed g) (hnonneg : Graph.Nonneg g)
    (hs : (Dict.find? g s).isSome) :
    ∃ dist prev, shortest_paths g s = .ok (dist, prev) ∧
      Dict.find? dist s = some ((0 : ℚ) : WithTop ℚ) ∧
      (∀ v, Reachable g s v →
        ∃ c : ℚ, Dict.find? dist v = some ((c : ℚ) : WithTop ℚ) ∧
          PathW g s v c ∧ ∀ c', PathW g s v c' → c ≤ c') ∧
      (∀ v, (Dict.find? g v).isSome → ¬ Reachable g s v →
        Dict.find? dist v = some (⊤ : WithTop ℚ)) ∧
      (∀ v, v ≠ s → Reachable g s v →
        ∃ u w du c, Dict.find? prev v = some (some u) ∧
          edgeWeight g u v = some w ∧
          Dict.find? dist u = some ((du : ℚ) : WithTop ℚ) ∧
          Dict.find? dist v = some ((c : ℚ) : WithTop ℚ) ∧
          du + w = c ∧ (∀ c', PathW g s v c' → c ≤ c') ∧
          (∀ c', PathW g s u c' → du ≤ c')) := by
  obtain ⟨dist, prev, hrun, hfacts⟩ :=
    shortest_paths_facts g s hwf hclosed hnonneg hs
  have hmin : ∀ v (c : ℚ),
      Dict.find? dist v = some ((c : ℚ) : WithTop ℚ) →
      ∀ c', PathW g s v c' → c ≤ c' := by
    intro v c hc c' hp
    obtain ⟨c2, hc2, hle⟩ := hfacts.complete v c' hp
    rw [hc] at hc2
    have hcc : c = c2 := by
      have := Option.some.inj hc2
      exact_mod_cast this
    linarith
  refine ⟨dist, prev, hrun, hfacts.distS, ?_, hfacts.unreachTop, ?_⟩
  · intro v hreach
    obtain ⟨c', hp⟩ := hreach
    obtain ⟨c, hc, hle⟩ := hfacts.complete v c' hp
    exact ⟨c, hc, hfacts.sound v c hc, hmin v c hc⟩
  · intro v hvs hreach
    obtain ⟨c', hp⟩ := hreach
    obtain ⟨c, hc, hle⟩ := hfacts.complete v c' hp
    obtain ⟨u, w, du, hpu, hw, hdu, hsum⟩ := hfacts.prevLink v c hvs hc
    exact ⟨u, w, du, c, hpu, hw, hdu, hc, hsum, hmin v c hc, hmin u du hdu⟩

/-- Witness for C2: the two-node graph `A → B` with weight 1 satisfies all
the hypotheses, and the theorem applies. -/
theorem shortest_paths_correct_witness :
    ∃ dist prev,
      shortest_paths [("A", [("B", 1)]), ("B", [])] "A" = .ok (dist, prev) ∧
      Dict.find? dist "A" = some ((0 : ℚ) : WithTop ℚ) ∧
      (∀ v, Reachable [("A", [("B", 1)]), ("B", [])] "A" v →
        ∃ c : ℚ, Dict.find? dist v = some ((c : ℚ) : WithTop ℚ) ∧
          PathW [("A", [("B", 1)]), ("B", [])] "A" v c ∧
          ∀ c', PathW [("A", [("B", 1)]), ("B", [])] "A" v c' → c ≤ c') ∧
      (∀ v, (Dict.find? ([("A", [("B", 1)]), ("B", [])] : Graph) v).isSome →
        ¬ Reachable [("A", [("B", 1)]), ("B", [])] "A" v →
        Dict.find? dist v = some (⊤ : WithTop ℚ)) ∧
      (∀ v, v ≠ "A" → Reachable [("A", [("B", 1)]), ("B", [])] "A" v →
        ∃ u w du c, Dict.find? prev v = some (some u) ∧
          edgeWeight [("A", [("B", 1)]), ("B", [])] u v = some w ∧
          Dict.find? dist u = some ((du : ℚ) : WithTop ℚ) ∧
          Dict.find? dist v = some ((c : ℚ) : WithTop ℚ) ∧
          du + w = c ∧
          (∀ c', PathW [("A", [("B", 1)]), ("B", [])] "A" v c' → c ≤ c') ∧
          (∀ c', PathW [("A", [("B", 1)]), ("B", [])] "A" u c' → du ≤ c')) := by
  refine shortest_paths_correct [("A", [("B", 1)]), ("B", [])] "A" ?_ ?_ ?_
    (by decide)
  · intro u adj h
    have hm := Dict.mem_of_find?_eq_some h
    simp only [List.mem_cons, List.mem_singleton, Prod.mk.injEq] at hm
    rcases hm with ⟨-, rfl⟩ | ⟨-, rfl⟩ | hm
    · decide
    · decide
    · simp at hm
  · intro u adj h p hp
    have hm := Dict.mem_of_find?_eq_some h
    simp only [List.mem_cons, List.mem_singleton, Prod.mk.injEq] at hm
    rcases hm with ⟨-, rfl⟩ | ⟨-, rfl⟩ | hm
    · simp only [List.mem_singleton] at hp
      subst hp
      decide
    · simp at hp
    · simp at hm
  · intro u adj h p hp
    have hm := Dict.mem_of_find?_eq_some h
    simp only [List.mem_cons, List.mem_singleton, Prod.mk.injEq] at hm
    rcases hm with ⟨-, rfl⟩ | ⟨-, rfl⟩ | hm
    · simp only [List.mem_singleton] at hp
      subst hp
      decide
    · simp at hp
    · simp at hm

/-! ## Path reconstruction -/

theorem reconstruct_go_walk (g : Graph) (s : String)
    (dist : Dict (WithTop ℚ)) (prev : Dict (Option String))
    (rank : String → Nat)
    (hrank : ∀ v u, prev.find? v = some (some u) → rank u < rank v)
    (hlink : ∀ v (c : ℚ), v ≠ s →
      dist.find? v = some ((c : ℚ) : WithTop ℚ) →
      ∃ u w du, prev.find? v = some (some u) ∧ edgeWeight g u v = some w ∧
        dist.find? u = some ((du : ℚ) : WithTop ℚ) ∧ du + w = c) :
    ∀ (fuel : Nat) (cur : String) (acc : List String) (c : ℚ),
      dist.find? cur = some ((c : ℚ) : WithTop ℚ) → rank cur < fuel →
      ∃ l, reconstruct_go prev s fuel cur acc = some (acc ++ l) ∧
        l.head? = some cur ∧ l.getLast? = some s ∧
        List.Chain' (fun a b => (edgeWeight g b a).isSome) l := by
  intro fuel
  induction fuel with
  | zero =>
    intro cur acc c hc hr
    omega
  | succ n ih =>
    intro cur acc c hc hr
    by_cases hcs : cur = s
    · subst hcs
      refine ⟨[cur], ?_, rfl, rfl, List.chain'_singleton cur⟩
      simp [reconstruct_go]
    · obtain ⟨u, w, du, hpu, hw, hdu, hsum⟩ := hlink cur c hcs hc
      have hru : rank u < n :=
        lt_of_lt_of_le (hrank cur u hpu) (Nat.lt_succ_iff.mp hr)
      obtain ⟨l', hres, hh', hl', hch'⟩ := ih u (acc ++ [cur]) du hdu hru
      refine ⟨cur :: l', ?_, rfl, ?_, ?_⟩
      · simp only [reconstruct_go, if_neg hcs, hpu]
        rw [hres]
        simp
      · cases l' with
        | nil => simp at hh'
        | cons a t =>
          rw [List.getLast?_cons_cons]
          exact hl'
      · refine List.chain'_cons'.mpr ⟨?_, hch'⟩
        intro b hb
        rw [hh'] at hb
        obtain rfl : u = b := Option.some.inj hb
        rw [hw]
        rfl

theorem reconstruct_path_reachable (g : Graph) (s : String)
    (dist : Dict (WithTop ℚ)) (prev : Dict (Option String))
    (rank : String → Nat) (d : String) (c : ℚ) (fuel : Nat)
    (hrank : ∀ v u, prev.find? v = some (some u) → rank u < rank v)
    (hlink : ∀ v (c : ℚ), v ≠ s →
      dist.find? v = some ((c : ℚ) : WithTop ℚ) →
      ∃ u w du, prev.find? v = some (some u) ∧ edgeWeight g u v = some w ∧
        dist.find? u = some ((du : ℚ) : WithTop ℚ) ∧ du + w = c)
    (hds : d ≠ s) (hc : dist.find? d = some ((c : ℚ) : WithTop ℚ))
    (hfuel : rank d < fuel) :
    ∃ p1 rest2, reconstruct_path prev s d fuel = some (s :: p1 :: rest2) ∧
      (s :: p1 :: rest2).getLast? = some d ∧
      List.Chain' (fun a b => (edgeWeight g a b).isSome) (s :: p1 :: rest2) := by
  obtain ⟨l, hres, hh, hl, hch⟩ :=
    reconstruct_go_walk g s dist prev rank hrank hlink fuel d [] c hc hfuel
  have hchain : List.Chain' (fun a b => (edgeWeight g a b).isSome)
      l.reverse := by
    rw [List.chain'_reverse]
    exact hch
  have hhead : l.reverse.head? = some s := by
    rw [List.head?_reverse]
    exact hl
  have hlast : l.reverse.getLast? = some d := by
    rw [List.getLast?_reverse]
    exact hh
  have hlen : 2 ≤ l.length := by
    cases l with
    | nil => simp at hh
    | cons a t =>
      cases t with
      | nil =>
        simp only [List.head?_cons, Option.some.injEq] at hh
        simp only [List.getLast?_singleton, Option.some.injEq] at hl
        exact absurd (hh.symm.trans hl) hds
      | cons b t2 => simp [List.length_cons]
  obtain ⟨p1, rest2, hrev⟩ : ∃ p1 rest2, l.reverse = s :: p1 :: rest2 := by
    cases hrevl : l.reverse with
    | nil =>
      rw [hrevl] at hhead
      simp at hhead
    | cons a t =>
      cases t with
      | nil =>
        have : l.length = 1 := by
          have := congrArg List.length hrevl
          simpa using this
        omega
      | cons b t2 =>
        rw [hrevl] at hhead
        simp only [List.head?_cons, Option.some.injEq] at hhead
        refine ⟨b, t2, ?_⟩
        rw [← hhead]
  refine ⟨p1, rest2, ?_, by rw [← hrev]; exact hlast,
    by rw [← hrev]; exact hchain⟩
  simp only [reconstruct_path, if_neg (Ne.symm hds), hres, List.nil_append]
  rw [hrev]
  simp

theorem reconstruct_path_unreachable (s d : String)
    (prev : Dict (Option String)) (fuel : Nat)
    (hds : d ≠ s) (hpd : prev.find? d = some none) :
    reconstruct_path prev s d (fuel + 1) = some [] := by
  simp only [reconstruct_path, if_neg (Ne.symm hds)]
  simp only [reconstruct_go, if_neg hds, hpd]
  simp [hds]

theorem headNext_congr (X Y : Option String) (p : List String) (h : X = Y) :
    headNext p X = headNext p Y := by
  cases p with
  | nil => exact h
  | cons a t =>
    cases t with
    | nil => exact h
    | cons b t2 => rfl

theorem headNext_of_eq (X Y : Option String) (p : List String)
    (h : X = headNext p Y) : headNext p X = headNext p Y := by
  cases p with
  | nil => exact h
  | cons a t =>
    cases t with
    | nil => exact h
    | cons b t2 => rfl

theorem nextHopGo_run (prev : Dict (Option String)) (s : String) (fuel : Nat) :
    ∀ (dests : List String) (nh0 : Dict String) (fp0 : Dict (List String)),
      (∀ d ∈ dests, d ≠ s → ∃ p, reconstruct_path prev s d fuel = some p) →
      ∃ nh fp, nextHopGo prev s fuel dests nh0 fp0 = some (nh, fp) ∧
        (∀ d q, d ∈ dests → d ≠ s →
          reconstruct_path prev s d fuel = some q →
          Dict.find? fp d = some q ∧
          Dict.find? nh d = headNext q (Dict.find? nh0 d)) ∧
        (∀ d, (d ∉ dests ∨ d = s) →
          Dict.find? fp d = Dict.find? fp0 d ∧
          Dict.find? nh d = Dict.find? nh0 d) := by
  intro dests
  induction dests with
  | nil =>
    intro nh0 fp0 hall
    exact ⟨nh0, fp0, rfl, fun d q hd => absurd hd (List.not_mem_nil d),
      fun d h => ⟨rfl, rfl⟩⟩
  | cons d0 rest ih =>
    intro nh0 fp0 hall
    by_cases hd0 : d0 = s
    · simp only [nextHopGo, if_pos hd0]
      obtain ⟨nh, fp, hrun, hpos, hfr⟩ :=
        ih nh0 fp0 (fun d hd hds => hall d (List.mem_cons_of_mem _ hd) hds)
      refine ⟨nh, fp, hrun, ?_, ?_⟩
      · intro d q hd hds hq
        rcases List.mem_cons.mp hd with rfl | hd
        · exact absurd hd0 hds
        · exact hpos d q hd hds hq
      · intro d hd
        apply hfr
        rcases hd with hd | rfl
        · exact Or.inl (fun h => hd (List.mem_cons_of_mem _ h))
        · exact Or.inr rfl
    · simp only [nextHopGo, if_neg hd0]
      obtain ⟨p, hp⟩ := hall d0 (List.mem_cons_self _ _) hd0
      rw [hp]
      have key : ∀ (nh1 : Dict String),
          Dict.find? nh1 d0 = headNext p (Dict.find? nh0 d0) →
          (∀ d, d ≠ d0 → Dict.find? nh1 d = Dict.find? nh0 d) →
          ∃ nh fp,
            nextHopGo prev s fuel rest nh1 (Dict.insert fp0 d0 p) =
              some (nh, fp) ∧
            (∀ d q, d ∈ d0 :: rest → d ≠ s →
              reconstruct_path prev s d fuel = some q →
              Dict.find? fp d = some q ∧
              Dict.find? nh d = headNext q (Dict.find? nh0 d)) ∧
            (∀ d, (d ∉ d0 :: rest ∨ d = s) →
              Dict.find? fp d = Dict.find? fp0 d ∧
              Dict.find? nh d = Dict.find? nh0 d) := by
        intro nh1 h1 h2
        obtain ⟨nh, fp, hrun, hpos, hfr⟩ :=
          ih nh1 (Dict.insert fp0 d0 p)
            (fun d hd hds => hall d (List.mem_cons_of_mem _ hd) hds)
        refine ⟨nh, fp, hrun, ?_, ?_⟩
        · intro d q hd hds hq
          by_cases hdd0 : d = d0
          · subst hdd0
            have hqp : q = p := Option.some.inj (hq.symm.trans hp)
            by_cases hdr : d ∈ rest
            · obtain ⟨hf2, hn2⟩ := hpos d q hdr hds hq
              refine ⟨hf2, ?_⟩
              rw [hn2]
              refine headNext_of_eq _ _ q ?_
              rw [hqp]
              exact h1
            · obtain ⟨hf2, hn2⟩ := hfr d (Or.inl hdr)
              refine ⟨hf2.trans ?_, ?_⟩
              · rw [hqp]
                exact Dict.find?_insert_self fp0 d p
              · refine hn2.trans ?_
                rw [hqp]
                exact h1
          · have hdr : d ∈ rest := by
              rcases List.mem_cons.mp hd with rfl | hd
              · exact absurd rfl hdd0
              · exact hd
            obtain ⟨hf2, hn2⟩ := hpos d q hdr hds hq
            refine ⟨hf2, ?_⟩
            rw [hn2]
            exact headNext_congr _ _ q (h2 d hdd0)
        · intro d hd
          rcases hd with hnin | hdeq
          · have hdd0 : d ≠ d0 := fun he => hnin (he ▸ List.mem_cons_self _ _)
            have hnr : d ∉ rest := fun he => hnin (List.mem_cons_of_mem _ he)
            obtain ⟨hf2, hn2⟩ := hfr d (Or.inl hnr)
            exact ⟨hf2.trans
              (Dict.find?_insert_ne fp0 d0 d p (Ne.symm hdd0)),
              hn2.trans (h2 d hdd0)⟩
          · have hdd0 : d ≠ d0 := fun he => hd0 (he ▸ hdeq)
            obtain ⟨hf2, hn2⟩ := hfr d (Or.inr hdeq)
            exact ⟨hf2.trans
              (Dict.find?_insert_ne fp0 d0 d p (Ne.symm hdd0)),
              hn2.trans (h2 d hdd0)⟩
      refine key _ ?_ ?_
      · cases p with
        | nil => rfl
        | cons a t =>
          cases t with
          | nil => rfl
          | cons b t2 => exact Dict.find?_insert_self nh0 d0 b
      · intro d hdd0
        cases p with
        | nil => rfl
        | cons a t =>
          cases t with
          | nil => rfl
          | cons b t2 =>
            exact Dict.find?_insert_ne nh0 d0 d b (fun he => hdd0 he.symm)

/-- C3: on a graph whose edge endpoints are all keys (with non-negative
weights, as everywhere in this engine) and a source that is a key,
`build_next_hop_table` records, for every reachable destination `d ≠ s`,
a full path that starts at `s`, ends at `d`, steps only along edges of the
graph, and whose second element is exactly `next_hop[d]` (hence adjacent
to `s`); for every unreachable destination the recorded path is empty and
no `next_hop` entry exists. -/
theorem build_next_hop_table_correct (g : Graph) (s : String)
    (hwf : Graph.WF g) (hclosed : Graph.Closed g) (hnonneg : Graph.Nonneg g)
    (hs : (Dict.find? g s).isSome) :
    ∃ nh dist fp, build_next_hop_table g s = .ok (nh, dist, fp) ∧
      (∀ d, d ≠ s → Reachable g s d →
        ∃ p1 rest2, Dict.find? fp d = some (s :: p1 :: rest2) ∧
          (s :: p1 :: rest2).getLast? = some d ∧
          List.Chain' (fun a b => (edgeWeight g a b).isSome)
            (s :: p1 :: rest2) ∧
          Dict.find? nh d = some p1 ∧ (edgeWeight g s p1).isSome) ∧
      (∀ d, (Dict.find? g d).isSome → ¬ Reachable g s d →
        Dict.find? fp d = some [] ∧ Dict.find? nh d = none) := by
  obtain ⟨dist, prev, hrun, hfacts⟩ :=
    shortest_paths_facts g s hwf hclosed hnonneg hs
  obtain ⟨rank, hrankle, hrank⟩ := hfacts.ranked
  have hall : ∀ d ∈ Dict.keys g, d ≠ s →
      ∃ p, reconstruct_path prev s d (g.length + 1) = some p := by
    intro d hd hds
    have hdk : (Dict.find? g d).isSome :=
      (Dict.isSome_find?_iff_mem_keys g d).mpr hd
    by_cases hreach : Reachable g s d
    · obtain ⟨c', hpw⟩ := hreach
      obtain ⟨c, hc, -⟩ := hfacts.complete d c' hpw
      obtain ⟨p1, rest2, hrp, -, -⟩ :=
        reconstruct_path_reachable g s dist prev rank d c (g.length + 1)
          hrank hfacts.prevLink hds hc (by have := hrankle d; omega)
      exact ⟨_, hrp⟩
    · have htop := hfacts.unreachTop d hdk hreach
      have hpd := hfacts.prevTop d htop
      exact ⟨[], reconstruct_path_unreachable s d prev g.length hds hpd⟩
  obtain ⟨nh, fp, hngo, hpos, hfr⟩ :=
    nextHopGo_run prev s (g.length + 1) (Dict.keys g) [] [] hall
  refine ⟨nh, dist, fp, ?_, ?_, ?_⟩
  · simp only [build_next_hop_table, hrun, hngo]
  · intro d hds hreach
    have hdk : (Dict.find? g d).isSome := by
      obtain ⟨c', hpw⟩ := hreach
      exact PathW.endpoint_isSome hs hclosed hpw
    obtain ⟨c', hpw⟩ := hreach
    obtain ⟨c, hc, -⟩ := hfacts.complete d c' hpw
    obtain ⟨p1, rest2, hrp, hlast, hchain⟩ :=
      reconstruct_path_reachable g s dist prev rank d c (g.length + 1)
        hrank hfacts.prevLink hds hc (by have := hrankle d; omega)
    have hdin : d ∈ Dict.keys g := (Dict.isSome_find?_iff_mem_keys g d).mp hdk
    obtain ⟨hfp, hnh⟩ := hpos d (s :: p1 :: rest2) hdin hds hrp
    refine ⟨p1, rest2, hfp, hlast, hchain, hnh, ?_⟩
    exact (List.chain'_cons.mp hchain).1
  · intro d hdk hnreach
    have hds : d ≠ s := fun he => hnreach (he ▸ ⟨0, PathW.refl⟩)
    have htop := hfacts.unreachTop d hdk hnreach
    have hpd := hfacts.prevTop d htop
    have hrp := reconstruct_path_unreachable s d prev g.length hds hpd
    have hdin : d ∈ Dict.keys g := (Dict.isSome_find?_iff_mem_keys g d).mp hdk
    obtain ⟨hfp, hnh⟩ := hpos d [] hdin hds hrp
    exact ⟨hfp, hnh⟩

/-- Witness for C3: the theorem applies to the two-node graph `A → B`. -/
theorem build_next_hop_table_correct_witness :
    ∃ nh dist fp,
      build_next_hop_table [("A", [("B", 1)]), ("B", [])] "A" =
        .ok (nh, dist, fp) ∧
      (∀ d, d ≠ "A" → Reachable [("A", [("B", 1)]), ("B", [])] "A" d →
        ∃ p1 rest2, Dict.find? fp d = some ("A" :: p1 :: rest2) ∧
          ("A" :: p1 :: rest2).getLast? = some d ∧
          List.Chain'
            (fun a b =>
              (edgeWeight [("A", [("B", 1)]), ("B", [])] a b).isSome)
            ("A" :: p1 :: rest2) ∧
          Dict.find? nh d = some p1 ∧
          (edgeWeight [("A", [("B", 1)]), ("B", [])] "A" p1).isSome) ∧
      (∀ d, (Dict.find? ([("A", [("B", 1)]), ("B", [])] : Graph) d).isSome →
        ¬ Reachable [("A", [("B", 1)]), ("B", [])] "A" d →
        Dict.find? fp d = some [] ∧ Dict.find? nh d = none) := by
  refine build_next_hop_table_correct [("A", [("B", 1)]), ("B", [])] "A"
    ?_ ?_ ?_ (by decide)
  · intro u adj h
    have hm := Dict.mem_of_find?_eq_some h
    simp only [List.mem_cons, List.mem_singleton, Prod.mk.injEq] at hm
    rcases hm with ⟨-, rfl⟩ | ⟨-, rfl⟩ | hm
    · decide
    · decide
    · simp at hm
  · intro u adj h p hp
    have hm := Dict.mem_of_find?_eq_some h
    simp only [List.mem_cons, List.mem_singleton, Prod.mk.injEq] at hm
    rcases hm with ⟨-, rfl⟩ | ⟨-, rfl⟩ | hm
    · simp only [List.mem_singleton] at hp
      subst hp
      decide
    · simp at hp
    · simp at hm
  · intro u adj h p hp
    have hm := Dict.mem_of_find?_eq_some h
    simp only [List.mem_cons, List.mem_singleton, Prod.mk.injEq] at hm
    rcases hm with ⟨-, rfl⟩ | ⟨-, rfl⟩ | hm
    · simp only [List.mem_singleton] at hp
      subst hp
      decide
    · simp at hp
    · simp at hm

/-- C9: refuted. `shortest_paths` does NOT treat missing nodes as isolated:
on `{'A': {'B': 1}}` (edge target `B` is not a key) the relaxation step
evaluates `dist[v]` for `v = "B"`, which is a `KeyError`, and on a source
that is not a key the first pop evaluates `graph[source]`, also a
`KeyError`.  Both lookups fail instead of returning normally. -/
theorem shortest_paths_keyerror_on_missing_nodes :
    shortest_paths [("A", [("B", 1)])] "A" =
      .error (.keyError "B") ∧
    shortest_paths [] "A" = .error (.keyError "A") := by
  constructor <;> rfl
